import Mathlib

set_option linter.unusedVariables false

/-!
Shallow embedding of the tree-sitter-traversal crate (src/lib.rs).

The crate traverses an n-ary tree through a cursor offering three moves
(goto_first_child, goto_next_sibling, goto_parent, each returning a success
flag) plus reading the current node.  We model the tree as a rose tree and a
cursor position as its reversed path from the root (head = deepest child
index); a node is identified by that reversed path.  Every cursor primitive
invocation is logged as an event, so that both the produced node sequences and
the sequences of primitive calls of the four traversal implementations
(PreorderTraverse, PostorderTraverse, traverse_iterative, traverse_recursive)
can be compared.
-/

namespace TS

inductive RTree : Type where
  | node : List RTree → RTree

mutual
/-- Number of nodes of a tree. -/
def tsize : RTree → Nat
  | .node cs => 1 + tsizeL cs
def tsizeL : List RTree → Nat
  | [] => 0
  | c :: cs => tsize c + tsizeL cs
end

def RTree.children : RTree → List RTree
  | .node cs => cs

/-- Subtree of `t` at reversed path `rp` (head of `rp` is the deepest child
index, so the lookup peels indices from the tail end of the walk). -/
def subAtR (t : RTree) : List Nat → Option RTree
  | [] => some t
  | i :: rest =>
    match subAtR t rest with
    | some s => s.children[i]?
    | none => none

/-- Cursor primitive: tree_sitter TreeCursor::goto_first_child.  Succeeds iff
the current node has a child; the cursor then points at child 0. -/
def goto_first_child (t : RTree) (rp : List Nat) : Option (List Nat) :=
  match subAtR t rp with
  | some (.node (_ :: _)) => some (0 :: rp)
  | _ => none

/-- Cursor primitive: tree_sitter TreeCursor::goto_next_sibling.  Fails at the
root; otherwise succeeds iff the parent has a further child. -/
def goto_next_sibling (t : RTree) (rp : List Nat) : Option (List Nat) :=
  match rp with
  | [] => none
  | i :: rest =>
    match subAtR t rest with
    | some s => if i + 1 < s.children.length then some ((i + 1) :: rest) else none
    | none => none

/-- Cursor primitive: tree_sitter TreeCursor::goto_parent.  Fails at the root. -/
def goto_parent (rp : List Nat) : Option (List Nat) :=
  match rp with
  | [] => none
  | _ :: rest => some rest

/-- One logged invocation of a cursor movement primitive, with its success
flag: first child, next sibling, parent. -/
inductive Ev : Type where
  | fc : Bool → Ev
  | ns : Bool → Ev
  | par : Bool → Ev
deriving DecidableEq, Repr

/-- Order enum of src/lib.rs. -/
inductive Order : Type where
  | Pre
  | Post
deriving DecidableEq, Repr

/-! ### Mathematical pre/post order node lists (used as the common yardstick) -/

/-- Pre-order list of the nodes of subtree `s` sitting at reversed path `rp`:
the node itself, then the children blocks left to right. -/
def preRdoc : Unit := ()

mutual
def preR : RTree → List Nat → List (List Nat)
  | .node cs, rp => rp :: preL cs rp 0
def preL : List RTree → List Nat → Nat → List (List Nat)
  | [], _, _ => []
  | c :: cs, rp, i => preR c (i :: rp) ++ preL cs rp (i + 1)
end

/-- Post-order list of the nodes of subtree `s` at reversed path `rp`:
children blocks left to right, then the node itself. -/
def postRdoc : Unit := ()

mutual
def postR : RTree → List Nat → List (List Nat)
  | .node cs, rp => postL cs rp 0 ++ [rp]
def postL : List RTree → List Nat → Nat → List (List Nat)
  | [], _, _ => []
  | c :: cs, rp, i => postR c (i :: rp) ++ postL cs rp (i + 1)
end

/-- Node list in the given order. -/
def outR : Order → RTree → List Nat → List (List Nat)
  | .Pre, s, rp => preR s rp
  | .Post, s, rp => postR s rp

def outL : Order → List RTree → List Nat → Nat → List (List Nat)
  | .Pre, cs, rp, i => preL cs rp i
  | .Post, cs, rp, i => postL cs rp i

/-! ### Canonical primitive-call event stream -/

/-- Events issued while the cursor covers a whole subtree: from arrival at its
root until the cursor is back at that root with the subtree exhausted (the
sibling test at the subtree root itself is not included).  `evSibs` covers the
remaining younger siblings of a child, ending with the failing sibling test of
the last child and the parent move back up. -/
def evSubdoc : Unit := ()

mutual
def evSub : RTree → List Ev
  | .node [] => [.fc false]
  | .node (c :: cs) => .fc true :: (evSub c ++ evSibs cs)
def evSibs : List RTree → List Ev
  | [] => [.ns false, .par true]
  | c :: cs => .ns true :: (evSub c ++ evSibs cs)
end

/-! ### The lazy iterators (PreorderTraverse, PostorderTraverse, Traverse) -/

/-- State of PreorderTraverse: the optional cursor. -/
structure PreorderTraverse where
  cursor : Option (List Nat)
deriving DecidableEq, Repr

def PreorderTraverse.new : PreorderTraverse := ⟨some []⟩

/-- Climb loop inside PreorderTraverse::next: repeatedly goto_parent, giving
up (cursor cleared) at the root, stopping at the first parent that has a next
sibling.  Returns the logged events and the resulting optional cursor. -/
def climbAux (t : RTree) : List Nat → List Ev × Option (List Nat)
  | [] => ([.par false], none)
  | _ :: rest =>
    match goto_next_sibling t rest with
    | some rp' => ([.par true, .ns true], some rp')
    | none =>
      let r := climbAux t rest
      (.par true :: .ns false :: r.1, r.2)

/-- PreorderTraverse::next of src/lib.rs: returns the logged events, the
produced node (if any) and the successor state. -/
def PreorderTraverse.next (t : RTree) : PreorderTraverse →
    List Ev × Option (List Nat) × PreorderTraverse
  | ⟨none⟩ => ([], none, ⟨none⟩)
  | ⟨some rp⟩ =>
    match goto_first_child t rp with
    | some rp' => ([.fc true], some rp, ⟨some rp'⟩)
    | none =>
      match goto_next_sibling t rp with
      | some rp' => ([.fc false, .ns true], some rp, ⟨some rp'⟩)
      | none =>
        let r := climbAux t rp
        (.fc false :: .ns false :: r.1, some rp, ⟨r.2⟩)

/-- State of PostorderTraverse: the optional cursor and the retracing flag. -/
structure PostorderTraverse where
  cursor : Option (List Nat)
  retracing : Bool
deriving DecidableEq, Repr

def PostorderTraverse.new : PostorderTraverse := ⟨some [], false⟩

/-- Descent loop inside PostorderTraverse::next: `while goto_first_child {}`,
with the logged events. -/
def descend (t : RTree) (rp : List Nat) : List Ev × List Nat :=
  match h : goto_first_child t rp with
  | some rp' =>
    let r := descend t rp'
    (.fc true :: r.1, r.2)
  | none => ([.fc false], rp)
termination_by (match subAtR t rp with | some s => tsize s | none => 0)
decreasing_by
  simp only [goto_first_child] at h
  split at h
  case _ c cs heq =>
    cases h
    simp only [subAtR, heq, RTree.children, List.getElem?_cons_zero]
    have : tsize (RTree.node (c :: cs)) = 1 + (tsize c + tsizeL cs) := by
      simp [tsize, tsizeL]
    rw [this]
    omega
  case _ => exact absurd h (by simp)

/-- PostorderTraverse::next of src/lib.rs. -/
def PostorderTraverse.next (t : RTree) : PostorderTraverse →
    List Ev × Option (List Nat) × PostorderTraverse
  | ⟨none, r⟩ => ([], none, ⟨none, r⟩)
  | ⟨some rp0, retr⟩ =>
    let d := if retr then ([], rp0) else descend t rp0
    let rp := d.2
    match goto_next_sibling t rp with
    | some rp' => (d.1 ++ [.ns true], some rp, ⟨some rp', false⟩)
    | none =>
      match goto_parent rp with
      | none => (d.1 ++ [.ns false, .par false], some rp, ⟨none, true⟩)
      | some rpP => (d.1 ++ [.ns false, .par true], some rp, ⟨some rpP, true⟩)

/-- The tagged union dispatching between the two lazy iterators. -/
inductive TraverseInner : Type where
  | Pre : PreorderTraverse → TraverseInner
  | Post : PostorderTraverse → TraverseInner
deriving DecidableEq, Repr

structure Traverse where
  inner : TraverseInner
deriving DecidableEq, Repr

def Traverse.new (o : Order) : Traverse :=
  match o with
  | .Pre => ⟨.Pre PreorderTraverse.new⟩
  | .Post => ⟨.Post PostorderTraverse.new⟩

/-- Traverse::next: dispatch to the active variant. -/
def Traverse.next (t : RTree) (s : Traverse) :
    List Ev × Option (List Nat) × Traverse :=
  match s.inner with
  | .Pre p => let r := PreorderTraverse.next t p; (r.1, r.2.1, ⟨.Pre r.2.2⟩)
  | .Post p => let r := PostorderTraverse.next t p; (r.1, r.2.1, ⟨.Post r.2.2⟩)

/-- traverse_iter of src/lib.rs: the public entry point building the lazy
sequence. -/
def traverse_iter (t : RTree) (o : Order) : Traverse := Traverse.new o

/-! ### Driving an iterator: repeatedly call next, stop at the first None -/

def runPre (t : RTree) : Nat → PreorderTraverse →
    List Ev × List (List Nat) × PreorderTraverse
  | 0, s => ([], [], s)
  | fuel + 1, s =>
    match PreorderTraverse.next t s with
    | (evs, none, s') => (evs, [], s')
    | (evs, some n, s') =>
      let r := runPre t fuel s'
      (evs ++ r.1, n :: r.2.1, r.2.2)

def runPost (t : RTree) : Nat → PostorderTraverse →
    List Ev × List (List Nat) × PostorderTraverse
  | 0, s => ([], [], s)
  | fuel + 1, s =>
    match PostorderTraverse.next t s with
    | (evs, none, s') => (evs, [], s')
    | (evs, some n, s') =>
      let r := runPost t fuel s'
      (evs ++ r.1, n :: r.2.1, r.2.2)

def runTraverse (t : RTree) : Nat → Traverse →
    List Ev × List (List Nat) × Traverse
  | 0, s => ([], [], s)
  | fuel + 1, s =>
    match Traverse.next t s with
    | (evs, none, s') => (evs, [], s')
    | (evs, some n, s') =>
      let r := runTraverse t fuel s'
      (evs ++ r.1, n :: r.2.1, r.2.2)

/-! ### The reference iterative callback walker (traverse_iterative) -/

/-- Inner climb loop of traverse_iterative (lines 38 to 56 of src/lib.rs).
On entry the cursor is at `rp`, a node whose subtree is exhausted and that has
no next sibling.  Returns (events, nodes passed to the callback, continuation
position of the outer loop; none when the function returned). -/
def innerLoop (t : RTree) (o : Order) : List Nat →
    List Ev × List (List Nat) × Option (List Nat)
  | [] => ([.par false], if o = .Post then [([] : List Nat)] else [], none)
  | i :: rest =>
    let e0 : List (List Nat) := if o = .Post then [i :: rest] else []
    match goto_next_sibling t rest with
    | some rp' => ([.par true, .ns true], e0 ++ (if o = .Post then [rest] else []), some rp')
    | none =>
      let r := innerLoop t o rest
      (.par true :: .ns false :: r.1, e0 ++ r.2.1, r.2.2)

/-- Outer loop of traverse_iterative, with fuel (`none` = fuel exhausted).
Each iteration starts at the first encounter of the node at `rp`. -/
def outerLoop (t : RTree) (o : Order) : Nat → List Nat →
    Option (List Ev × List (List Nat))
  | 0, _ => none
  | fuel + 1, rp =>
    let e0 : List (List Nat) := if o = .Pre then [rp] else []
    match goto_first_child t rp with
    | some rp' =>
      match outerLoop t o fuel rp' with
      | some r => some (.fc true :: r.1, e0 ++ r.2)
      | none => none
    | none =>
      match goto_next_sibling t rp with
      | some rp' =>
        match outerLoop t o fuel rp' with
        | some r =>
          some (.fc false :: .ns true :: r.1, e0 ++ (if o = .Post then [rp] else []) ++ r.2)
        | none => none
      | none =>
        let r := innerLoop t o rp
        match r.2.2 with
        | none => some (.fc false :: .ns false :: r.1, e0 ++ r.2.1)
        | some rp' =>
          match outerLoop t o fuel rp' with
          | some r2 => some (.fc false :: .ns false :: (r.1 ++ r2.1), e0 ++ r.2.1 ++ r2.2)
          | none => none

/-- traverse_iterative of src/lib.rs, with fuel for the outer loop. -/
def traverse_iterative (t : RTree) (o : Order) (fuel : Nat) :
    Option (List Ev × List (List Nat)) :=
  outerLoop t o fuel []

/-! ### The reference recursive walker (traverse_recursive / traverse_helper) -/

/-- Result of a traverse_helper call: events, nodes passed to the callback and
the final cursor position; or the failure of the `assert!(c.goto_parent())`;
or fuel exhaustion (a modelling artifact, never reached with enough fuel). -/
inductive HelperResult : Type where
  | ok : List Ev → List (List Nat) → List Nat → HelperResult
  | assertFailed : HelperResult
  | outOfFuel : HelperResult
deriving DecidableEq, Repr

/-- traverse_helper of src/lib.rs together with its child-and-siblings loop,
both fuelled. -/
def traverse_helperdoc : Unit := ()

mutual
def traverse_helper (t : RTree) (o : Order) : Nat → List Nat → HelperResult
  | 0, _ => .outOfFuel
  | fuel + 1, rp =>
    let e0 : List (List Nat) := if o = .Pre then [rp] else []
    match goto_first_child t rp with
    | none => .ok [.fc false] (e0 ++ (if o = .Post then [rp] else [])) rp
    | some rp1 =>
      match helperLoop t o fuel rp1 with
      | .outOfFuel => .outOfFuel
      | .assertFailed => .assertFailed
      | .ok evs outs rp2 =>
        match goto_parent rp2 with
        | none => .assertFailed
        | some rp3 =>
          .ok (.fc true :: (evs ++ [.par true]))
            (e0 ++ outs ++ (if o = .Post then [rp3] else [])) rp3
def helperLoop (t : RTree) (o : Order) : Nat → List Nat → HelperResult
  | 0, _ => .outOfFuel
  | fuel + 1, rp =>
    match traverse_helper t o fuel rp with
    | .outOfFuel => .outOfFuel
    | .assertFailed => .assertFailed
    | .ok evs outs rp1 =>
      match goto_next_sibling t rp1 with
      | none => .ok (evs ++ [.ns false]) outs rp1
      | some rp2 =>
        match helperLoop t o fuel rp2 with
        | .outOfFuel => .outOfFuel
        | .assertFailed => .assertFailed
        | .ok evs2 outs2 rp3 => .ok (evs ++ .ns true :: evs2) (outs ++ outs2) rp3
end

/-- traverse_recursive of src/lib.rs. -/
def traverse_recursive (t : RTree) (o : Order) (fuel : Nat) : HelperResult :=
  traverse_helper t o fuel []

/-! ### Pending work after a subtree is exhausted -/

/-- Number of nodes still to be visited after the subtree at `rp` is finished:
the sizes of the younger siblings of every ancestor step. -/
def pendN (t : RTree) : List Nat → Nat
  | [] => 0
  | i :: rest =>
    (match subAtR t rest with
     | some sp => tsizeL (sp.children.drop (i + 1))
     | none => 0) + pendN t rest

/-- Primitive-call events issued after the subtree at `rp` is finished. -/
def pendEv (t : RTree) : List Nat → List Ev
  | [] => [.ns false, .par false]
  | i :: rest =>
    (match subAtR t rest with
     | some sp => evSibs (sp.children.drop (i + 1))
     | none => []) ++ pendEv t rest

/-- Nodes produced after the subtree at `rp` is finished, pre-order. -/
def pendPre (t : RTree) : List Nat → List (List Nat)
  | [] => []
  | i :: rest =>
    (match subAtR t rest with
     | some sp => preL (sp.children.drop (i + 1)) rest (i + 1)
     | none => []) ++ pendPre t rest

/-- Nodes produced after the subtree at `rp` is finished, post-order (each
ancestor itself is still pending in post-order). -/
def pendPost (t : RTree) : List Nat → List (List Nat)
  | [] => []
  | i :: rest =>
    (match subAtR t rest with
     | some sp => postL (sp.children.drop (i + 1)) rest (i + 1)
     | none => []) ++ (rest :: pendPost t rest)

def pendO : Order → RTree → List Nat → List (List Nat)
  | .Pre, t, rp => pendPre t rp
  | .Post, t, rp => pendPost t rp

/-! ### Continuation values: what remains after a climb hands over -/

def contEv (t : RTree) : Option (List Nat) → List Ev
  | none => []
  | some rp' =>
    (match subAtR t rp' with
     | some s => evSub s
     | none => []) ++ pendEv t rp'

def contPre (t : RTree) : Option (List Nat) → List (List Nat)
  | none => []
  | some rp' =>
    (match subAtR t rp' with
     | some s => preR s rp'
     | none => []) ++ pendPre t rp'

def contPost (t : RTree) : Option (List Nat) → List (List Nat)
  | none => []
  | some rp' =>
    (match subAtR t rp' with
     | some s => postR s rp'
     | none => []) ++ pendPost t rp'

def contO : Order → RTree → Option (List Nat) → List (List Nat)
  | .Pre, t, c => contPre t c
  | .Post, t, c => contPost t c

/-- Events of the sibling loop inside traverse_helper, starting at the first
of the listed remaining siblings: each subtree, separated by successful
sibling moves, closed by the final failing sibling move. -/
def evLoop : List RTree → List Ev
  | [] => []
  | [c] => evSub c ++ [.ns false]
  | c :: c2 :: cs => evSub c ++ .ns true :: evLoop (c2 :: cs)

/-- The full run of the lazy iterator built by traverse_iter:
trace of primitive calls, produced nodes, final state. -/
def iterRun (t : RTree) (o : Order) : List Ev × List (List Nat) × Traverse :=
  runTraverse t (tsize t) (traverse_iter t o)

/-! ### Step algorithms as worded by the specification (sections 4.2 and 4.3) -/

/-- Modelled from the spec, section 4.2 step 4: repeatedly attempt toParent;
if it fails the sequence becomes Done; if it succeeds, attempt toNextSibling,
stopping there on success and repeating the climb on failure. -/
def specPreClimb (t : RTree) (rp : List Nat) : Option (List Nat) :=
  match h : goto_parent rp with
  | none => none
  | some rpP =>
    match goto_next_sibling t rpP with
    | some rp' => some rp'
    | none => specPreClimb t rpP
termination_by rp.length
decreasing_by
  cases rp with
  | nil => simp [goto_parent] at h
  | cons i rest =>
    simp only [goto_parent, Option.some.injEq] at h
    subst h
    simp

/-- Modelled from the spec, section 4.2: one pre-order step produces the
current node; the successor cursor comes from toFirstChild, else
toNextSibling, else the climb; a `none` successor is the Done state. -/
def specPreStep (t : RTree) (rp : List Nat) : List Nat × Option (List Nat) :=
  (rp,
   match goto_first_child t rp with
   | some c => some c
   | none =>
     match goto_next_sibling t rp with
     | some sb => some sb
     | none => specPreClimb t rp)

/-- Modelled from the spec, section 4.3 step 1: repeatedly call toFirstChild
until it fails. -/
def specDescend (t : RTree) (rp : List Nat) : List Nat :=
  match h : goto_first_child t rp with
  | some rp' => specDescend t rp'
  | none => rp
termination_by (match subAtR t rp with | some s => tsize s | none => 0)
decreasing_by
  simp only [goto_first_child] at h
  split at h
  case _ c cs heq =>
    cases h
    simp only [subAtR, heq, RTree.children, List.getElem?_cons_zero]
    have h2 : tsize (RTree.node (c :: cs)) = 1 + (tsize c + tsizeL cs) := by
      simp [tsize, tsizeL]
    rw [h2]
    omega
  case _ => exact absurd h (by simp)

/-- Modelled from the spec, section 4.3: one post-order step descends unless
retracing, produces the reached node, then moves to its next sibling
(clearing the flag) or to its parent (setting the flag), Done at the root. -/
def specPostStep (t : RTree) (rp : List Nat) (retracing : Bool) :
    List Nat × Option (List Nat) × Bool :=
  let dp := if retracing then rp else specDescend t rp
  (dp,
   match goto_next_sibling t dp with
   | some sb => (some sb, false)
   | none =>
     match goto_parent dp with
     | none => (none, true)
     | some p => (some p, true))

/-- The cursor held by the unified iterator state. -/
def Traverse.cursor : Traverse → Option (List Nat)
  | ⟨.Pre p⟩ => p.cursor
  | ⟨.Post p⟩ => p.cursor

/-! ### Basic lemmas about sizes, lookups and the cursor primitives -/

theorem tsize_pos (s : RTree) : 0 < tsize s := by
  cases s with
  | node cs => simp [tsize]

theorem tsize_node (cs : List RTree) : tsize (.node cs) = 1 + tsizeL cs := by
  simp [tsize]

theorem tsizeL_cons (c : RTree) (cs : List RTree) :
    tsizeL (c :: cs) = tsize c + tsizeL cs := by
  simp [tsizeL]

theorem tsizeL_drop (cs : List RTree) (i : Nat) (c : RTree) (h : cs[i]? = some c) :
    tsizeL (cs.drop i) = tsize c + tsizeL (cs.drop (i + 1)) := by
  have hlt : i < cs.length := (List.getElem?_eq_some.mp h).1
  rw [List.drop_eq_getElem_cons hlt, tsizeL_cons]
  have : cs[i] = c := by
    have := List.getElem?_eq_getElem hlt
    rw [h] at this
    exact (Option.some.injEq _ _ ▸ this).symm
  rw [this]

theorem subAtR_nil (t : RTree) : subAtR t [] = some t := rfl

theorem subAtR_cons (t : RTree) (i : Nat) (rest : List Nat) (sp : RTree)
    (h : subAtR t rest = some sp) : subAtR t (i :: rest) = sp.children[i]? := by
  simp [subAtR, h]

theorem subAtR_cons_some (t : RTree) (i : Nat) (rest : List Nat) (s : RTree)
    (h : subAtR t (i :: rest) = some s) :
    ∃ sp, subAtR t rest = some sp ∧ sp.children[i]? = some s := by
  simp only [subAtR] at h
  cases hr : subAtR t rest with
  | none => rw [hr] at h; exact absurd h (by simp)
  | some sp => rw [hr] at h; exact ⟨sp, rfl, h⟩

theorem gfc_internal (t : RTree) (rp : List Nat) (c : RTree) (cs : List RTree)
    (h : subAtR t rp = some (.node (c :: cs))) :
    goto_first_child t rp = some (0 :: rp) := by
  simp [goto_first_child, h]

theorem gfc_leaf (t : RTree) (rp : List Nat)
    (h : subAtR t rp = some (.node [])) : goto_first_child t rp = none := by
  simp [goto_first_child, h]

theorem gfc_child (t : RTree) (rp : List Nat) (c : RTree) (cs : List RTree)
    (h : subAtR t rp = some (.node (c :: cs))) :
    subAtR t (0 :: rp) = some c := by
  rw [subAtR_cons t 0 rp _ h]
  simp [RTree.children]

theorem gns_shape (t : RTree) (rp rp' : List Nat)
    (h : goto_next_sibling t rp = some rp') :
    ∃ i rest, rp = i :: rest ∧ rp' = (i + 1) :: rest := by
  cases rp with
  | nil => exact absurd h (by simp [goto_next_sibling])
  | cons i rest =>
    refine ⟨i, rest, rfl, ?_⟩
    simp only [goto_next_sibling] at h
    cases hr : subAtR t rest with
    | none => rw [hr] at h; exact absurd h (by simp)
    | some sp =>
      rw [hr] at h
      by_cases hlt : i + 1 < sp.children.length
      · simp [hlt] at h; exact h.symm
      · simp [hlt] at h

theorem gns_some_of (t : RTree) (i : Nat) (rest : List Nat) (sp sib : RTree)
    (hp : subAtR t rest = some sp) (hsib : sp.children[i + 1]? = some sib) :
    goto_next_sibling t (i :: rest) = some ((i + 1) :: rest) := by
  have hlt : i + 1 < sp.children.length := (List.getElem?_eq_some.mp hsib).1
  simp [goto_next_sibling, hp, hlt]

theorem gns_none_of (t : RTree) (i : Nat) (rest : List Nat) (sp : RTree)
    (hp : subAtR t rest = some sp) (hsib : sp.children[i + 1]? = none) :
    goto_next_sibling t (i :: rest) = none := by
  have hge : ¬ i + 1 < sp.children.length := by
    intro hlt
    rw [List.getElem?_eq_getElem hlt] at hsib
    exact absurd hsib (by simp)
  simp [goto_next_sibling, hp, hge]

theorem gns_sib (t : RTree) (i : Nat) (rest : List Nat) (sp : RTree)
    (hp : subAtR t rest = some sp)
    (h : goto_next_sibling t (i :: rest) = some ((i + 1) :: rest)) :
    ∃ sib, sp.children[i + 1]? = some sib ∧ subAtR t ((i + 1) :: rest) = some sib := by
  simp only [goto_next_sibling, hp] at h
  by_cases hlt : i + 1 < sp.children.length
  · refine ⟨sp.children[i + 1], List.getElem?_eq_getElem hlt, ?_⟩
    rw [subAtR_cons t _ rest _ hp]
    exact List.getElem?_eq_getElem hlt
  · simp [hlt] at h

theorem gns_none_elim (t : RTree) (i : Nat) (rest : List Nat) (sp : RTree)
    (hp : subAtR t rest = some sp)
    (h : goto_next_sibling t (i :: rest) = none) :
    sp.children[i + 1]? = none := by
  simp only [goto_next_sibling, hp] at h
  by_cases hlt : i + 1 < sp.children.length
  · simp [hlt] at h
  · exact List.getElem?_eq_none (by omega)

theorem length_pre_post (s : RTree) :
    ∀ rp, (preR s rp).length = tsize s ∧ (postR s rp).length = tsize s := by
  induction s using RTree.rec
    (motive_2 := fun cs => ∀ rp i,
      (preL cs rp i).length = tsizeL cs ∧ (postL cs rp i).length = tsizeL cs) with
  | node cs ih =>
    intro rp
    constructor
    · simp only [preR, tsize, List.length_cons, (ih rp 0).1]
      omega
    · simp only [postR, tsize, List.length_append, List.length_cons,
        List.length_nil, (ih rp 0).2]
      omega
  | nil => simp [preL, postL, tsizeL]
  | cons c cs ihc ihcs =>
    constructor
    · simp [preL, tsizeL, ihc, ihcs]
    · simp [postL, tsizeL, ihc, ihcs]

theorem length_preR (s : RTree) (rp : List Nat) : (preR s rp).length = tsize s :=
  (length_pre_post s rp).1

theorem length_postR (s : RTree) (rp : List Nat) : (postR s rp).length = tsize s :=
  (length_pre_post s rp).2

theorem length_preL (cs : List RTree) (rp : List Nat) (i : Nat) :
    (preL cs rp i).length = tsizeL cs := by
  induction cs generalizing i with
  | nil => simp [preL, tsizeL]
  | cons c cs ih => simp [preL, tsizeL, length_preR, ih]

theorem length_postL (cs : List RTree) (rp : List Nat) (i : Nat) :
    (postL cs rp i).length = tsizeL cs := by
  induction cs generalizing i with
  | nil => simp [postL, tsizeL]
  | cons c cs ih => simp [postL, tsizeL, length_postR, ih]

theorem length_outR (o : Order) (s : RTree) (rp : List Nat) :
    (outR o s rp).length = tsize s := by
  cases o <;> simp [outR, length_preR, length_postR]

/-! ### Shift lemmas: one sibling step and one parent step of the pending work -/

theorem pendN_shift (t : RTree) (i : Nat) (rest : List Nat) (sp sib : RTree)
    (hp : subAtR t rest = some sp) (hsib : sp.children[i + 1]? = some sib) :
    pendN t (i :: rest) = tsize sib + pendN t ((i + 1) :: rest) := by
  have hd := tsizeL_drop sp.children (i + 1) sib hsib
  simp only [pendN, hp]
  rw [hd]
  omega

theorem pendN_last (t : RTree) (i : Nat) (rest : List Nat) (sp : RTree)
    (hp : subAtR t rest = some sp) (hsib : sp.children[i + 1]? = none) :
    pendN t (i :: rest) = pendN t rest := by
  have hlen : sp.children.length ≤ i + 1 := by
    by_contra hlt
    rw [List.getElem?_eq_getElem (by omega)] at hsib
    exact absurd hsib (by simp)
  simp [pendN, hp, List.drop_eq_nil_of_le hlen, tsizeL]

theorem pendEv_shift (t : RTree) (i : Nat) (rest : List Nat) (sp sib : RTree)
    (hp : subAtR t rest = some sp) (hsib : sp.children[i + 1]? = some sib) :
    pendEv t (i :: rest) = .ns true :: (evSub sib ++ pendEv t ((i + 1) :: rest)) := by
  have hlt : i + 1 < sp.children.length := (List.getElem?_eq_some.mp hsib).1
  have hget : sp.children[i + 1] = sib := by
    have := List.getElem?_eq_getElem hlt
    rw [hsib] at this
    exact (Option.some.injEq _ _ ▸ this).symm
  simp only [pendEv, hp, List.drop_eq_getElem_cons hlt, hget, evSibs]
  simp

theorem pendEv_last (t : RTree) (i : Nat) (rest : List Nat) (sp : RTree)
    (hp : subAtR t rest = some sp) (hsib : sp.children[i + 1]? = none) :
    pendEv t (i :: rest) = .ns false :: .par true :: pendEv t rest := by
  have hlen : sp.children.length ≤ i + 1 := by
    by_contra hlt
    rw [List.getElem?_eq_getElem (by omega)] at hsib
    exact absurd hsib (by simp)
  simp [pendEv, hp, List.drop_eq_nil_of_le hlen, evSibs]

theorem pendPre_shift (t : RTree) (i : Nat) (rest : List Nat) (sp sib : RTree)
    (hp : subAtR t rest = some sp) (hsib : sp.children[i + 1]? = some sib) :
    pendPre t (i :: rest) = preR sib ((i + 1) :: rest) ++ pendPre t ((i + 1) :: rest) := by
  have hlt : i + 1 < sp.children.length := (List.getElem?_eq_some.mp hsib).1
  have hget : sp.children[i + 1] = sib := by
    have := List.getElem?_eq_getElem hlt
    rw [hsib] at this
    exact (Option.some.injEq _ _ ▸ this).symm
  simp only [pendPre, hp, List.drop_eq_getElem_cons hlt, hget, preL]
  simp

theorem pendPre_last (t : RTree) (i : Nat) (rest : List Nat) (sp : RTree)
    (hp : subAtR t rest = some sp) (hsib : sp.children[i + 1]? = none) :
    pendPre t (i :: rest) = pendPre t rest := by
  have hlen : sp.children.length ≤ i + 1 := by
    by_contra hlt
    rw [List.getElem?_eq_getElem (by omega)] at hsib
    exact absurd hsib (by simp)
  simp [pendPre, hp, List.drop_eq_nil_of_le hlen, preL]

theorem pendPost_shift (t : RTree) (i : Nat) (rest : List Nat) (sp sib : RTree)
    (hp : subAtR t rest = some sp) (hsib : sp.children[i + 1]? = some sib) :
    pendPost t (i :: rest) = postR sib ((i + 1) :: rest) ++ pendPost t ((i + 1) :: rest) := by
  have hlt : i + 1 < sp.children.length := (List.getElem?_eq_some.mp hsib).1
  have hget : sp.children[i + 1] = sib := by
    have := List.getElem?_eq_getElem hlt
    rw [hsib] at this
    exact (Option.some.injEq _ _ ▸ this).symm
  simp only [pendPost, hp, List.drop_eq_getElem_cons hlt, hget, postL]
  simp

theorem pendPost_last (t : RTree) (i : Nat) (rest : List Nat) (sp : RTree)
    (hp : subAtR t rest = some sp) (hsib : sp.children[i + 1]? = none) :
    pendPost t (i :: rest) = rest :: pendPost t rest := by
  have hlen : sp.children.length ≤ i + 1 := by
    by_contra hlt
    rw [List.getElem?_eq_getElem (by omega)] at hsib
    exact absurd hsib (by simp)
  simp [pendPost, hp, List.drop_eq_nil_of_le hlen, postL]

/-! ### One descent step of the combined subtree-plus-pending quantities -/

theorem step_down_ev (t : RTree) (rp : List Nat) (c : RTree) (cs : List RTree)
    (h : subAtR t rp = some (.node (c :: cs))) :
    evSub (.node (c :: cs)) ++ pendEv t rp = .fc true :: (evSub c ++ pendEv t (0 :: rp)) := by
  have h0 : pendEv t (0 :: rp) = evSibs cs ++ pendEv t rp := by
    simp [pendEv, h, RTree.children]
  rw [h0]
  simp [evSub]

theorem step_down_pre (t : RTree) (rp : List Nat) (c : RTree) (cs : List RTree)
    (h : subAtR t rp = some (.node (c :: cs))) :
    preR (.node (c :: cs)) rp ++ pendPre t rp = rp :: (preR c (0 :: rp) ++ pendPre t (0 :: rp)) := by
  have h0 : pendPre t (0 :: rp) = preL cs rp 1 ++ pendPre t rp := by
    simp [pendPre, h, RTree.children]
  rw [h0]
  simp [preR, preL]

theorem step_down_post (t : RTree) (rp : List Nat) (c : RTree) (cs : List RTree)
    (h : subAtR t rp = some (.node (c :: cs))) :
    postR (.node (c :: cs)) rp ++ pendPost t rp = postR c (0 :: rp) ++ pendPost t (0 :: rp) := by
  have h0 : pendPost t (0 :: rp) = postL cs rp 1 ++ (rp :: pendPost t rp) := by
    simp [pendPost, h, RTree.children]
  rw [h0]
  simp [postR, postL]

theorem step_down_N (t : RTree) (rp : List Nat) (c : RTree) (cs : List RTree)
    (h : subAtR t rp = some (.node (c :: cs))) :
    tsize c + pendN t (0 :: rp) + 1 = tsize (.node (c :: cs)) + pendN t rp := by
  have h0 : pendN t (0 :: rp) = tsizeL cs + pendN t rp := by
    simp [pendN, h, RTree.children]
  rw [h0, tsize_node, tsizeL_cons]
  omega

theorem contEv_some (t : RTree) (rp' : List Nat) (s' : RTree)
    (h : subAtR t rp' = some s') : contEv t (some rp') = evSub s' ++ pendEv t rp' := by
  simp [contEv, h]

theorem contPre_some (t : RTree) (rp' : List Nat) (s' : RTree)
    (h : subAtR t rp' = some s') : contPre t (some rp') = preR s' rp' ++ pendPre t rp' := by
  simp [contPre, h]

theorem contPost_some (t : RTree) (rp' : List Nat) (s' : RTree)
    (h : subAtR t rp' = some s') : contPost t (some rp') = postR s' rp' ++ pendPost t rp' := by
  simp [contPost, h]

/-! ### The climb loop of PreorderTraverse::next realises the pending work -/

theorem climbAux_spec (t : RTree) : ∀ rp s, subAtR t rp = some s →
    goto_next_sibling t rp = none →
    pendEv t rp = .ns false :: ((climbAux t rp).1 ++ contEv t (climbAux t rp).2)
    ∧ pendPre t rp = contPre t (climbAux t rp).2
    ∧ (∀ rp', (climbAux t rp).2 = some rp' → ∃ s', subAtR t rp' = some s') := by
  intro rp
  induction rp with
  | nil =>
    intro s hs hns
    refine ⟨?_, ?_, ?_⟩
    · simp [pendEv, climbAux, contEv]
    · simp [pendPre, climbAux, contPre]
    · simp [climbAux]
  | cons i rest ih =>
    intro s hs hns
    obtain ⟨sp, hsp, hspi⟩ := subAtR_cons_some t i rest s hs
    have hsibnone : sp.children[i + 1]? = none := gns_none_elim t i rest sp hsp hns
    cases hg : goto_next_sibling t rest with
    | some rq =>
      obtain ⟨j, r2, hrest, hrq⟩ := gns_shape t rest rq hg
      subst hrest
      obtain ⟨spp, hspp, hsppj⟩ := subAtR_cons_some t j r2 sp hsp
      obtain ⟨sib, hsibj, hsibat⟩ := gns_sib t j r2 spp hspp (hrq ▸ hg)
      subst hrq
      refine ⟨?_, ?_, ?_⟩
      · rw [pendEv_last t i _ sp hsp hsibnone,
          pendEv_shift t j r2 spp sib hspp hsibj]
        simp [climbAux, hg, contEv_some t _ sib hsibat]
      · rw [pendPre_last t i _ sp hsp hsibnone,
          pendPre_shift t j r2 spp sib hspp hsibj]
        simp [climbAux, hg, contPre_some t _ sib hsibat]
      · intro rp' h
        simp [climbAux, hg] at h
        exact ⟨sib, h ▸ hsibat⟩
    | none =>
      obtain ⟨ihEv, ihPre, ihV⟩ := ih sp hsp hg
      refine ⟨?_, ?_, ?_⟩
      · rw [pendEv_last t i _ sp hsp hsibnone, ihEv]
        simp [climbAux, hg]
      · rw [pendPre_last t i _ sp hsp hsibnone, ihPre]
        simp [climbAux, hg]
      · intro rp' h
        simp [climbAux, hg] at h
        exact ihV rp' h

/-! ### The inner loop of traverse_iterative realises the pending work -/

theorem innerLoop_spec (t : RTree) (o : Order) : ∀ rp s, subAtR t rp = some s →
    goto_next_sibling t rp = none →
    pendEv t rp = .ns false :: ((innerLoop t o rp).1 ++ contEv t (innerLoop t o rp).2.2)
    ∧ (o = .Pre → (innerLoop t o rp).2.1 ++ contPre t (innerLoop t o rp).2.2 = pendPre t rp)
    ∧ (o = .Post →
        (innerLoop t o rp).2.1 ++ contPost t (innerLoop t o rp).2.2 = rp :: pendPost t rp)
    ∧ (∀ rp', (innerLoop t o rp).2.2 = some rp' →
        ∃ s', subAtR t rp' = some s' ∧ tsize s' + pendN t rp' = pendN t rp)
    ∧ ((innerLoop t o rp).2.2 = none → pendN t rp = 0) := by
  intro rp
  induction rp with
  | nil =>
    intro s hs hns
    refine ⟨?_, ?_, ?_, ?_, ?_⟩
    · simp [pendEv, innerLoop, contEv]
    · intro ho; subst ho; simp [innerLoop, contPre, pendPre]
    · intro ho; subst ho; simp [innerLoop, contPost, pendPost]
    · intro rp' h; simp [innerLoop] at h
    · intro h; simp [pendN]
  | cons i rest ih =>
    intro s hs hns
    obtain ⟨sp, hsp, hspi⟩ := subAtR_cons_some t i rest s hs
    have hsibnone : sp.children[i + 1]? = none := gns_none_elim t i rest sp hsp hns
    cases hg : goto_next_sibling t rest with
    | some rq =>
      obtain ⟨j, r2, hrest, hrq⟩ := gns_shape t rest rq hg
      subst hrest
      obtain ⟨spp, hspp, hsppj⟩ := subAtR_cons_some t j r2 sp hsp
      obtain ⟨sib, hsibj, hsibat⟩ := gns_sib t j r2 spp hspp (hrq ▸ hg)
      subst hrq
      refine ⟨?_, ?_, ?_, ?_, ?_⟩
      · rw [pendEv_last t i _ sp hsp hsibnone,
          pendEv_shift t j r2 spp sib hspp hsibj]
        simp [innerLoop, hg, contEv_some t _ sib hsibat]
      · intro ho; subst ho
        rw [pendPre_last t i _ sp hsp hsibnone,
          pendPre_shift t j r2 spp sib hspp hsibj]
        simp [innerLoop, hg, contPre_some t _ sib hsibat]
      · intro ho; subst ho
        rw [pendPost_last t i _ sp hsp hsibnone,
          pendPost_shift t j r2 spp sib hspp hsibj]
        simp [innerLoop, hg, contPost_some t _ sib hsibat]
      · intro rp' h
        simp [innerLoop, hg] at h
        refine ⟨sib, h ▸ hsibat, ?_⟩
        rw [pendN_last t i _ sp hsp hsibnone,
          pendN_shift t j r2 spp sib hspp hsibj, h]
      · intro h; simp [innerLoop, hg] at h
    | none =>
      obtain ⟨ihEv, ihPre, ihPost, ihV, ihN⟩ := ih sp hsp hg
      refine ⟨?_, ?_, ?_, ?_, ?_⟩
      · rw [pendEv_last t i _ sp hsp hsibnone, ihEv]
        simp [innerLoop, hg]
      · intro ho; subst ho
        rw [pendPre_last t i _ sp hsp hsibnone, ← ihPre rfl]
        simp [innerLoop, hg]
      · intro ho; subst ho
        rw [pendPost_last t i _ sp hsp hsibnone, ← ihPost rfl]
        simp [innerLoop, hg]
      · intro rp' h
        simp only [innerLoop, hg] at h
        obtain ⟨s', hs', hN⟩ := ihV rp' h
        exact ⟨s', hs', by rw [pendN_last t i _ sp hsp hsibnone, hN]⟩
      · intro h
        simp only [innerLoop, hg] at h
        rw [pendN_last t i _ sp hsp hsibnone]
        exact ihN h

/-! ### Unfolding equations for the descend loop -/

theorem descend_eq_some (t : RTree) (rp rp' : List Nat)
    (h : goto_first_child t rp = some rp') :
    descend t rp = (.fc true :: (descend t rp').1, (descend t rp').2) := by
  rw [descend]
  split
  case _ rq hq => rw [h] at hq; cases hq; rfl
  case _ hq => rw [h] at hq; cases hq

theorem descend_eq_none (t : RTree) (rp : List Nat)
    (h : goto_first_child t rp = none) :
    descend t rp = ([.fc false], rp) := by
  rw [descend]
  split
  case _ rq hq => rw [h] at hq; cases hq
  case _ hq => rfl

/-- The descend loop of PostorderTraverse::next lands on a leaf and turns the
pending decomposition at `rp` into the one at the leaf. -/
theorem descend_spec (t : RTree) : ∀ n s rp, tsize s ≤ n → subAtR t rp = some s →
    subAtR t (descend t rp).2 = some (RTree.node [])
    ∧ evSub s ++ pendEv t rp = (descend t rp).1 ++ pendEv t (descend t rp).2
    ∧ postR s rp ++ pendPost t rp = (descend t rp).2 :: pendPost t (descend t rp).2 := by
  intro n
  induction n with
  | zero =>
    intro s rp h
    have := tsize_pos s
    omega
  | succ n ih =>
    intro s rp hle hs
    cases s with
    | node cs =>
      cases cs with
      | nil =>
        have hfc := gfc_leaf t rp hs
        rw [descend_eq_none t rp hfc]
        refine ⟨hs, by simp [evSub], by simp [postR, postL]⟩
      | cons c cs' =>
        have hfc := gfc_internal t rp c cs' hs
        have hchild := gfc_child t rp c cs' hs
        have hsize : tsize c ≤ n := by
          rw [tsize_node, tsizeL_cons] at hle
          omega
        obtain ⟨d1, d2, d3⟩ := ih c (0 :: rp) hsize hchild
        rw [descend_eq_some t rp (0 :: rp) hfc]
        refine ⟨d1, ?_, ?_⟩
        · rw [step_down_ev t rp c cs' hs, d2]
          rfl
        · rw [step_down_post t rp c cs' hs, d3]

/-! ### Full runs of the lazy pre-order iterator -/

theorem runPre_none (t : RTree) : ∀ fuel, runPre t fuel ⟨none⟩ = ([], [], ⟨none⟩) := by
  intro fuel
  cases fuel with
  | zero => rfl
  | succ fuel => simp [runPre, PreorderTraverse.next]

theorem runPre_spec (t : RTree) : ∀ fuel rp s, subAtR t rp = some s →
    (preR s rp ++ pendPre t rp).length ≤ fuel →
    runPre t fuel ⟨some rp⟩ =
      (evSub s ++ pendEv t rp, preR s rp ++ pendPre t rp, ⟨none⟩) := by
  intro fuel
  induction fuel with
  | zero =>
    intro rp s hs hlen
    exfalso
    have h1 := length_preR s rp
    have h2 := tsize_pos s
    rw [List.length_append] at hlen
    omega
  | succ fuel ih =>
    intro rp s hs hlen
    cases s with
    | node cs =>
      cases cs with
      | cons c cs' =>
        have hfc := gfc_internal t rp c cs' hs
        have hchild := gfc_child t rp c cs' hs
        have hstep := step_down_pre t rp c cs' hs
        have hstepEv := step_down_ev t rp c cs' hs
        have hlen' : (preR c (0 :: rp) ++ pendPre t (0 :: rp)).length ≤ fuel := by
          have hl := congrArg List.length hstep
          simp only [List.length_append, List.length_cons] at hl hlen ⊢
          omega
        have hrec := ih (0 :: rp) c hchild hlen'
        simp only [runPre, PreorderTraverse.next, hfc, hrec, List.singleton_append]
        rw [hstep, hstepEv]
      | nil =>
        have hfc := gfc_leaf t rp hs
        cases hg : goto_next_sibling t rp with
        | some rq =>
          obtain ⟨i, rest, hrp, hrq⟩ := gns_shape t rp rq hg
          subst hrp
          obtain ⟨sp, hsp, hspi⟩ := subAtR_cons_some t i rest _ hs
          obtain ⟨sib, hsibi, hsibat⟩ := gns_sib t i rest sp hsp (hrq ▸ hg)
          subst hrq
          have hshift := pendPre_shift t i rest sp sib hsp hsibi
          have hshiftEv := pendEv_shift t i rest sp sib hsp hsibi
          have hlen' : (preR sib ((i + 1) :: rest) ++ pendPre t ((i + 1) :: rest)).length ≤ fuel := by
            simp only [List.length_append, hshift, length_preR, tsize, tsizeL,
              List.length_cons] at hlen ⊢
            omega
          have hrec := ih ((i + 1) :: rest) sib hsibat hlen'
          simp only [runPre, PreorderTraverse.next, hfc, hg, hrec]
          rw [hshift, hshiftEv]
          simp [preR, preL, evSub]
        | none =>
          obtain ⟨cEv, cPre, cV⟩ := climbAux_spec t rp _ hs hg
          cases hcl : (climbAux t rp).2 with
          | none =>
            simp only [runPre, PreorderTraverse.next, hfc, hg, hcl, runPre_none]
            rw [hcl] at cEv cPre
            simp only [contEv, contPre] at cEv cPre
            rw [cEv, cPre]
            simp [preR, preL, evSub]
          | some rq =>
            obtain ⟨s', hs'⟩ := cV rq hcl
            rw [hcl, contPre_some t rq s' hs'] at cPre
            rw [hcl, contEv_some t rq s' hs'] at cEv
            have hlen' : (preR s' rq ++ pendPre t rq).length ≤ fuel := by
              rw [cPre] at hlen
              simp only [List.length_append, length_preR, tsize, tsizeL,
                List.length_cons] at hlen ⊢
              omega
            have hrec := ih rq s' hs' hlen'
            simp only [runPre, PreorderTraverse.next, hfc, hg, hcl, hrec]
            rw [cPre, cEv]
            simp [preR, preL, evSub]

/-! ### Full runs of the lazy post-order iterator -/

theorem runPost_none (t : RTree) : ∀ fuel r, runPost t fuel ⟨none, r⟩ = ([], [], ⟨none, r⟩) := by
  intro fuel r
  cases fuel with
  | zero => rfl
  | succ fuel => simp [runPost, PostorderTraverse.next]

/-! ### Case unfoldings of PostorderTraverse::next -/

theorem postNext_true_sib (t : RTree) (rp rq : List Nat)
    (h : goto_next_sibling t rp = some rq) :
    PostorderTraverse.next t ⟨some rp, true⟩ = ([.ns true], some rp, ⟨some rq, false⟩) := by
  simp [PostorderTraverse.next, h]

theorem postNext_true_root (t : RTree) :
    PostorderTraverse.next t ⟨some [], true⟩ =
      ([.ns false, .par false], some [], ⟨none, true⟩) := by
  simp [PostorderTraverse.next, goto_next_sibling, goto_parent]

theorem postNext_true_up (t : RTree) (i : Nat) (rest : List Nat)
    (h : goto_next_sibling t (i :: rest) = none) :
    PostorderTraverse.next t ⟨some (i :: rest), true⟩ =
      ([.ns false, .par true], some (i :: rest), ⟨some rest, true⟩) := by
  simp [PostorderTraverse.next, h, goto_parent]

theorem postNext_false_sib (t : RTree) (rp0 dp rq : List Nat) (devs : List Ev)
    (hdes : descend t rp0 = (devs, dp)) (h : goto_next_sibling t dp = some rq) :
    PostorderTraverse.next t ⟨some rp0, false⟩ =
      (devs ++ [.ns true], some dp, ⟨some rq, false⟩) := by
  simp [PostorderTraverse.next, hdes, h]

theorem postNext_false_root (t : RTree) (rp0 : List Nat) (devs : List Ev)
    (hdes : descend t rp0 = (devs, [])) :
    PostorderTraverse.next t ⟨some rp0, false⟩ =
      (devs ++ [.ns false, .par false], some [], ⟨none, true⟩) := by
  simp [PostorderTraverse.next, hdes, goto_next_sibling, goto_parent]

theorem postNext_false_up (t : RTree) (rp0 : List Nat) (i : Nat) (rest : List Nat)
    (devs : List Ev) (hdes : descend t rp0 = (devs, i :: rest))
    (h : goto_next_sibling t (i :: rest) = none) :
    PostorderTraverse.next t ⟨some rp0, false⟩ =
      (devs ++ [.ns false, .par true], some (i :: rest), ⟨some rest, true⟩) := by
  simp [PostorderTraverse.next, hdes, h, goto_parent]

theorem runPost_succ (t : RTree) (fuel : Nat) (s s' : PostorderTraverse)
    (evs : List Ev) (n : List Nat)
    (hnext : PostorderTraverse.next t s = (evs, some n, s')) :
    runPost t (fuel + 1) s =
      (evs ++ (runPost t fuel s').1, n :: (runPost t fuel s').2.1,
       (runPost t fuel s').2.2) := by
  simp [runPost, hnext]

theorem runPost_spec (t : RTree) : ∀ fuel rp s retr, subAtR t rp = some s →
    cond retr (1 + (pendPost t rp).length) (tsize s + (pendPost t rp).length) ≤ fuel →
    runPost t fuel ⟨some rp, retr⟩ =
      (cond retr (pendEv t rp) (evSub s ++ pendEv t rp),
       cond retr (rp :: pendPost t rp) (postR s rp ++ pendPost t rp),
       ⟨none, true⟩) := by
  intro fuel
  induction fuel with
  | zero =>
    intro rp s retr hs hlen
    exfalso
    have h2 := tsize_pos s
    cases retr <;> simp only [Bool.cond_true, Bool.cond_false] at hlen <;> omega
  | succ fuel ih =>
    intro rp s retr hs hlen
    cases retr with
    | true =>
      simp only [Bool.cond_true] at hlen ⊢
      cases hg : goto_next_sibling t rp with
      | some rq =>
        obtain ⟨i, rest, hrp, hrq⟩ := gns_shape t rp rq hg
        subst hrp
        obtain ⟨sp, hsp, hspi⟩ := subAtR_cons_some t i rest _ hs
        obtain ⟨sib, hsibi, hsibat⟩ := gns_sib t i rest sp hsp (hrq ▸ hg)
        subst hrq
        have hshift := pendPost_shift t i rest sp sib hsp hsibi
        have hshiftEv := pendEv_shift t i rest sp sib hsp hsibi
        have hlenshift : (pendPost t (i :: rest)).length =
            tsize sib + (pendPost t ((i + 1) :: rest)).length := by
          rw [hshift, List.length_append, length_postR]
        have hlen' : cond false (1 + (pendPost t ((i + 1) :: rest)).length)
            (tsize sib + (pendPost t ((i + 1) :: rest)).length) ≤ fuel := by
          simp only [Bool.cond_false]
          omega
        have hrec := ih ((i + 1) :: rest) sib false hsibat hlen'
        simp only [Bool.cond_false] at hrec
        rw [runPost_succ t fuel _ _ _ _ (postNext_true_sib t (i :: rest) _ hg), hrec,
          hshift, hshiftEv]
        simp
      | none =>
        cases rp with
        | nil =>
          rw [runPost_succ t fuel _ _ _ _ (postNext_true_root t), runPost_none]
          simp [pendEv, pendPost]
        | cons i rest =>
          obtain ⟨sp, hsp, hspi⟩ := subAtR_cons_some t i rest _ hs
          have hsibnone : sp.children[i + 1]? = none := gns_none_elim t i rest sp hsp hg
          have hlast := pendPost_last t i rest sp hsp hsibnone
          have hlastEv := pendEv_last t i rest sp hsp hsibnone
          have hlenlast : (pendPost t (i :: rest)).length =
              (pendPost t rest).length + 1 := by
            rw [hlast, List.length_cons]
          have hlen' : cond true (1 + (pendPost t rest).length)
              (tsize sp + (pendPost t rest).length) ≤ fuel := by
            simp only [Bool.cond_true]
            omega
          have hrec := ih rest sp true hsp hlen'
          simp only [Bool.cond_true] at hrec
          rw [runPost_succ t fuel _ _ _ _ (postNext_true_up t i rest hg), hrec,
            hlast, hlastEv]
          simp
    | false =>
      simp only [Bool.cond_false] at hlen ⊢
      cases hdes : descend t rp with
      | mk devs dp =>
        obtain ⟨dleaf, dEv, dPost⟩ := descend_spec t (tsize s) s rp (Nat.le_refl _) hs
        rw [hdes] at dleaf dEv dPost
        simp only at dleaf dEv dPost
        have hlendp : tsize s + (pendPost t rp).length = 1 + (pendPost t dp).length := by
          have hl := congrArg List.length dPost
          rw [List.length_append, List.length_cons, length_postR] at hl
          omega
        cases hg : goto_next_sibling t dp with
        | some rq =>
          obtain ⟨i, rest, hdp, hrq⟩ := gns_shape t dp rq hg
          subst hdp
          obtain ⟨sp, hsp, hspi⟩ := subAtR_cons_some t i rest _ dleaf
          obtain ⟨sib, hsibi, hsibat⟩ := gns_sib t i rest sp hsp (hrq ▸ hg)
          subst hrq
          have hshift := pendPost_shift t i rest sp sib hsp hsibi
          have hshiftEv := pendEv_shift t i rest sp sib hsp hsibi
          have hlenshift : (pendPost t (i :: rest)).length =
              tsize sib + (pendPost t ((i + 1) :: rest)).length := by
            rw [hshift, List.length_append, length_postR]
          have hlen' : cond false (1 + (pendPost t ((i + 1) :: rest)).length)
              (tsize sib + (pendPost t ((i + 1) :: rest)).length) ≤ fuel := by
            simp only [Bool.cond_false]
            omega
          have hrec := ih ((i + 1) :: rest) sib false hsibat hlen'
          simp only [Bool.cond_false] at hrec
          rw [runPost_succ t fuel _ _ _ _ (postNext_false_sib t rp _ _ devs hdes hg),
            hrec, dEv, dPost, hshift, hshiftEv]
          simp
        | none =>
          cases dp with
          | nil =>
            rw [runPost_succ t fuel _ _ _ _ (postNext_false_root t rp devs hdes),
              runPost_none, dEv, dPost]
            simp [pendEv, pendPost]
          | cons i rest =>
            obtain ⟨sp, hsp, hspi⟩ := subAtR_cons_some t i rest _ dleaf
            have hsibnone : sp.children[i + 1]? = none := gns_none_elim t i rest sp hsp hg
            have hlast := pendPost_last t i rest sp hsp hsibnone
            have hlastEv := pendEv_last t i rest sp hsp hsibnone
            have hlenlast : (pendPost t (i :: rest)).length =
                (pendPost t rest).length + 1 := by
              rw [hlast, List.length_cons]
            have hlen' : cond true (1 + (pendPost t rest).length)
                (tsize sp + (pendPost t rest).length) ≤ fuel := by
              simp only [Bool.cond_true]
              omega
            have hrec := ih rest sp true hsp hlen'
            simp only [Bool.cond_true] at hrec
            rw [runPost_succ t fuel _ _ _ _ (postNext_false_up t rp i rest devs hdes hg),
              hrec, dEv, dPost, hlast, hlastEv]
            simp

/-! ### Characterization of the iterative callback walker -/

theorem contO_some (o : Order) (t : RTree) (rq : List Nat) (s' : RTree)
    (h : subAtR t rq = some s') :
    contO o t (some rq) = outR o s' rq ++ pendO o t rq := by
  cases o
  · exact contPre_some t rq s' h
  · exact contPost_some t rq s' h

theorem step_down_out (o : Order) (t : RTree) (rp : List Nat) (c : RTree)
    (cs : List RTree) (h : subAtR t rp = some (.node (c :: cs))) :
    outR o (.node (c :: cs)) rp ++ pendO o t rp =
      (if o = .Pre then [rp] else []) ++ (outR o c (0 :: rp) ++ pendO o t (0 :: rp)) := by
  cases o
  · simpa [outR, pendO] using step_down_pre t rp c cs h
  · simpa [outR, pendO] using step_down_post t rp c cs h

theorem step_right_out (o : Order) (t : RTree) (i : Nat) (rest : List Nat)
    (sp sib : RTree) (hsp : subAtR t rest = some sp)
    (hsibi : sp.children[i + 1]? = some sib) :
    outR o (.node []) (i :: rest) ++ pendO o t (i :: rest) =
      (if o = .Pre then [i :: rest] else []) ++ (if o = .Post then [i :: rest] else []) ++
        (outR o sib ((i + 1) :: rest) ++ pendO o t ((i + 1) :: rest)) := by
  cases o
  · simp [outR, pendO, pendPre_shift t i rest sp sib hsp hsibi, preR, preL]
  · simp [outR, pendO, pendPost_shift t i rest sp sib hsp hsibi, postR, postL]

theorem inner_out (o : Order) (t : RTree) (rp : List Nat) (s : RTree)
    (hs : subAtR t rp = some s) (hns : goto_next_sibling t rp = none) :
    outR o (.node []) rp ++ pendO o t rp =
      (if o = .Pre then [rp] else []) ++
        ((innerLoop t o rp).2.1 ++ contO o t (innerLoop t o rp).2.2) := by
  obtain ⟨_, hPre, hPost, _, _⟩ := innerLoop_spec t o rp s hs hns
  cases o
  · rw [show contO Order.Pre t (innerLoop t Order.Pre rp).2.2 =
      contPre t (innerLoop t Order.Pre rp).2.2 from rfl, hPre rfl]
    simp [outR, pendO, preR, preL]
  · rw [show contO Order.Post t (innerLoop t Order.Post rp).2.2 =
      contPost t (innerLoop t Order.Post rp).2.2 from rfl, hPost rfl]
    simp [outR, pendO, postR, postL]

theorem outerLoop_spec (t : RTree) (o : Order) : ∀ fuel rp s, subAtR t rp = some s →
    tsize s + pendN t rp ≤ fuel →
    outerLoop t o fuel rp =
      some (evSub s ++ pendEv t rp, outR o s rp ++ pendO o t rp) := by
  intro fuel
  induction fuel with
  | zero =>
    intro rp s hs hlen
    have := tsize_pos s
    omega
  | succ fuel ih =>
    intro rp s hs hlen
    cases s with
    | node cs =>
      cases cs with
      | cons c cs' =>
        have hfc := gfc_internal t rp c cs' hs
        have hchild := gfc_child t rp c cs' hs
        have hN := step_down_N t rp c cs' hs
        have hrec := ih (0 :: rp) c hchild (by omega)
        simp only [outerLoop, hfc, hrec]
        rw [step_down_ev t rp c cs' hs, step_down_out o t rp c cs' hs]
      | nil =>
        have hfc := gfc_leaf t rp hs
        have hNleaf : pendN t rp ≤ fuel := by
          have := tsize_pos (RTree.node [])
          simp [tsize, tsizeL] at hlen
          omega
        cases hg : goto_next_sibling t rp with
        | some rq =>
          obtain ⟨i, rest, hrp, hrq⟩ := gns_shape t rp rq hg
          subst hrp
          obtain ⟨sp, hsp, hspi⟩ := subAtR_cons_some t i rest _ hs
          obtain ⟨sib, hsibi, hsibat⟩ := gns_sib t i rest sp hsp (hrq ▸ hg)
          subst hrq
          have hNs := pendN_shift t i rest sp sib hsp hsibi
          have hrec := ih ((i + 1) :: rest) sib hsibat (by omega)
          simp only [outerLoop, hfc, hg, hrec]
          rw [pendEv_shift t i rest sp sib hsp hsibi,
            step_right_out o t i rest sp sib hsp hsibi]
          simp [evSub]
        | none =>
          obtain ⟨cEv, _, _, cV, cN⟩ := innerLoop_spec t o rp _ hs hg
          have hout := inner_out o t rp _ hs hg
          cases hcl : (innerLoop t o rp).2.2 with
          | none =>
            rw [hcl] at cEv hout
            simp only [contEv, contO] at cEv
            simp only [outerLoop, hfc, hg, hcl]
            rw [cEv, hout]
            cases o <;> simp [evSub, contO, contPre, contPost]
          | some rq =>
            obtain ⟨s', hs', hN⟩ := cV rq hcl
            have hrec := ih rq s' hs' (by omega)
            rw [hcl] at cEv hout
            rw [contEv_some t rq s' hs'] at cEv
            rw [contO_some o t rq s' hs'] at hout
            simp only [outerLoop, hfc, hg, hcl, hrec]
            rw [cEv, hout]
            simp [evSub]

/-! ### Characterization of the recursive walker -/

theorem evLoop_par (c : RTree) (cs : List RTree) :
    evLoop (c :: cs) ++ [.par true] = evSub c ++ evSibs cs := by
  induction cs generalizing c with
  | nil => simp [evLoop, evSibs]
  | cons c2 cs ih =>
    show (evSub c ++ .ns true :: evLoop (c2 :: cs)) ++ [.par true] = evSub c ++ evSibs (c2 :: cs)
    rw [List.append_assoc, List.cons_append, ih c2]
    simp [evSibs]

theorem outL_nil (o : Order) (rp : List Nat) (i : Nat) : outL o [] rp i = [] := by
  cases o <;> rfl

theorem outL_cons (o : Order) (c : RTree) (cs : List RTree) (rp : List Nat) (i : Nat) :
    outL o (c :: cs) rp i = outR o c (i :: rp) ++ outL o cs rp (i + 1) := by
  cases o <;> rfl

theorem outR_leaf (o : Order) (rp : List Nat) : outR o (.node []) rp = [rp] := by
  cases o <;> simp [outR, preR, postR, preL, postL]

theorem outR_node (o : Order) (c : RTree) (cs : List RTree) (rp : List Nat) :
    outR o (.node (c :: cs)) rp =
      (if o = .Pre then [rp] else []) ++ outL o (c :: cs) rp 0 ++
        (if o = .Post then [rp] else []) := by
  cases o <;> simp [outR, outL, preR, postR]

/-! ### Case unfoldings of traverse_helper and helperLoop -/

theorem helper_succ_leaf (t : RTree) (o : Order) (fuel : Nat) (rp : List Nat)
    (h : goto_first_child t rp = none) :
    traverse_helper t o (fuel + 1) rp =
      .ok [.fc false]
        ((if o = .Pre then [rp] else []) ++ (if o = .Post then [rp] else [])) rp := by
  simp [traverse_helper, h]

theorem helper_succ_node (t : RTree) (o : Order) (fuel : Nat) (rp rp1 rp3 : List Nat)
    (rp2 : List Nat) (evs : List Ev) (outs : List (List Nat))
    (h : goto_first_child t rp = some rp1)
    (hloop : helperLoop t o fuel rp1 = .ok evs outs rp2)
    (hpar : goto_parent rp2 = some rp3) :
    traverse_helper t o (fuel + 1) rp =
      .ok (.fc true :: (evs ++ [.par true]))
        ((if o = .Pre then [rp] else []) ++ outs ++ (if o = .Post then [rp3] else []))
        rp3 := by
  simp [traverse_helper, h, hloop, hpar]

theorem loop_succ_last (t : RTree) (o : Order) (fuel : Nat) (rp rp1 : List Nat)
    (evs : List Ev) (outs : List (List Nat))
    (hh : traverse_helper t o fuel rp = .ok evs outs rp1)
    (hns : goto_next_sibling t rp1 = none) :
    helperLoop t o (fuel + 1) rp = .ok (evs ++ [.ns false]) outs rp1 := by
  simp [helperLoop, hh, hns]

theorem loop_succ_cons (t : RTree) (o : Order) (fuel : Nat) (rp rp1 rp2 rp3 : List Nat)
    (evs evs2 : List Ev) (outs outs2 : List (List Nat))
    (hh : traverse_helper t o fuel rp = .ok evs outs rp1)
    (hns : goto_next_sibling t rp1 = some rp2)
    (hloop : helperLoop t o fuel rp2 = .ok evs2 outs2 rp3) :
    helperLoop t o (fuel + 1) rp = .ok (evs ++ .ns true :: evs2) (outs ++ outs2) rp3 := by
  simp [helperLoop, hh, hns, hloop]

/-- Main correctness of traverse_helper: with enough fuel it visits the whole
subtree in order, issues the canonical events, and restores the cursor. -/
theorem helper_spec (t : RTree) (o : Order) : ∀ fuel,
    (∀ rp s, subAtR t rp = some s → 2 * tsize s ≤ fuel →
      traverse_helper t o fuel rp = .ok (evSub s) (outR o s rp) rp)
    ∧ (∀ i rest sp sc, subAtR t rest = some sp → sp.children[i]? = some sc →
        2 * tsizeL (sp.children.drop i) + 1 ≤ fuel →
        helperLoop t o fuel (i :: rest) =
          .ok (evLoop (sp.children.drop i)) (outL o (sp.children.drop i) rest i)
            ((sp.children.length - 1) :: rest)) := by
  intro fuel
  induction fuel with
  | zero =>
    constructor
    · intro rp s hs hle
      have := tsize_pos s
      omega
    · intro i rest sp sc hsp hsc hle
      omega
  | succ fuel ih =>
    obtain ⟨ihH, ihL⟩ := ih
    constructor
    · intro rp s hs hle
      cases s with
      | node cs =>
        cases cs with
        | nil =>
          rw [helper_succ_leaf t o fuel rp (gfc_leaf t rp hs)]
          cases o <;> simp [evSub, outR, preR, postR, preL, postL]
        | cons c cs' =>
          have hfc := gfc_internal t rp c cs' hs
          have hsc0 : (RTree.node (c :: cs')).children[0]? = some c := by
            simp [RTree.children]
          have hsize : 2 * tsizeL ((RTree.node (c :: cs')).children.drop 0) + 1 ≤ fuel := by
            rw [tsize_node] at hle
            simp [RTree.children]
            omega
          have hloop := ihL 0 rp (RTree.node (c :: cs')) c hs hsc0 hsize
          have hpar : goto_parent (((RTree.node (c :: cs')).children.length - 1) :: rp) =
              some rp := rfl
          rw [helper_succ_node t o fuel rp (0 :: rp) rp _ _ _ hfc hloop hpar]
          rw [outR_node o c cs' rp]
          have hev : evLoop ((RTree.node (c :: cs')).children.drop 0) ++ [Ev.par true] =
              evSub c ++ evSibs cs' := by
            simp only [RTree.children, List.drop_zero]
            exact evLoop_par c cs'
          simp only [RTree.children, List.drop_zero] at hloop ⊢
          rw [show evSub (RTree.node (c :: cs')) = .fc true :: (evSub c ++ evSibs cs') from rfl,
            ← evLoop_par c cs']
    · intro i rest sp sc hsp hsc hle
      have hsub : subAtR t (i :: rest) = some sc := by
        rw [subAtR_cons t i rest sp hsp]
        exact hsc
      have hdropsz := tsizeL_drop sp.children i sc hsc
      have hh := ihH (i :: rest) sc hsub (by have := tsize_pos sc; omega)
      have hilt : i < sp.children.length := (List.getElem?_eq_some.mp hsc).1
      have hgeti : sp.children[i] = sc := by
        have := List.getElem?_eq_getElem hilt
        rw [hsc] at this
        exact (Option.some.injEq _ _ ▸ this).symm
      cases hsc2 : sp.children[i + 1]? with
      | none =>
        have hns := gns_none_of t i rest sp hsp hsc2
        rw [loop_succ_last t o fuel _ _ _ _ hh hns]
        have hlen : sp.children.length = i + 1 := by
          by_contra hne
          have : i + 1 < sp.children.length := by omega
          rw [List.getElem?_eq_getElem this] at hsc2
          exact absurd hsc2 (by simp)
        have hdrop : sp.children.drop i = [sc] := by
          rw [List.drop_eq_getElem_cons hilt, hgeti,
            List.drop_eq_nil_of_le (by omega)]
        rw [hdrop]
        have : sp.children.length - 1 = i := by omega
        rw [this]
        simp [evLoop, outL_cons, outL_nil]
      | some sib =>
        have hns := gns_some_of t i rest sp sib hsp hsc2
        have hlt1 : i + 1 < sp.children.length := (List.getElem?_eq_some.mp hsc2).1
        have hget1 : sp.children[i + 1] = sib := by
          have := List.getElem?_eq_getElem hlt1
          rw [hsc2] at this
          exact (Option.some.injEq _ _ ▸ this).symm
        have hdropsz2 := tsizeL_drop sp.children (i + 1) sib hsc2
        have hloop := ihL (i + 1) rest sp sib hsp hsc2
          (by have := tsize_pos sc; have := tsize_pos sib; omega)
        rw [loop_succ_cons t o fuel _ _ _ _ _ _ _ _ hh hns hloop]
        have hdrop : sp.children.drop i = sc :: (sib :: sp.children.drop (i + 2)) := by
          rw [List.drop_eq_getElem_cons hilt, hgeti]
          congr 1
          rw [List.drop_eq_getElem_cons hlt1, hget1]
        have hdrop1 : sp.children.drop (i + 1) = sib :: sp.children.drop (i + 2) := by
          rw [List.drop_eq_getElem_cons hlt1, hget1]
        rw [hdrop, hdrop1]
        simp [evLoop, outL_cons]

/-! ### The goto_parent assertion in traverse_helper can never fail -/

theorem helper_no_assert (t : RTree) (o : Order) : ∀ fuel,
    (∀ rp, traverse_helper t o fuel rp ≠ .assertFailed
      ∧ (∀ evs outs rp', traverse_helper t o fuel rp = .ok evs outs rp' → rp' = rp))
    ∧ (∀ rp, helperLoop t o fuel rp ≠ .assertFailed
      ∧ (∀ evs outs rp', helperLoop t o fuel rp = .ok evs outs rp' →
          rp'.tail = rp.tail ∧ (rp ≠ [] → rp' ≠ []))) := by
  intro fuel
  induction fuel with
  | zero =>
    constructor
    · intro rp
      constructor
      · intro h
        simp [traverse_helper] at h
      · intro evs outs rp' h
        simp [traverse_helper] at h
    · intro rp
      constructor
      · intro h
        simp [helperLoop] at h
      · intro evs outs rp' h
        simp [helperLoop] at h
  | succ fuel ih =>
    obtain ⟨ihH, ihL⟩ := ih
    constructor
    · intro rp
      cases hg : goto_first_child t rp with
      | none =>
        rw [helper_succ_leaf t o fuel rp hg]
        constructor
        · intro h
          cases h
        · intro evs outs rp' h
          cases h
          rfl
      | some rp1 =>
        cases hl : helperLoop t o fuel rp1 with
        | outOfFuel =>
          have heq : traverse_helper t o (fuel + 1) rp = .outOfFuel := by
            simp [traverse_helper, hg, hl]
          rw [heq]
          constructor
          · intro h
            cases h
          · intro evs outs rp' h
            cases h
        | assertFailed => exact absurd hl (ihL rp1).1
        | ok evs0 outs0 rp2 =>
          have hrp1 : rp1 = 0 :: rp := by
            simp only [goto_first_child] at hg
            split at hg
            case _ => cases hg; rfl
            case _ => cases hg
          obtain ⟨htail, hne⟩ := (ihL rp1).2 evs0 outs0 rp2 hl
          have hrp2ne : rp2 ≠ [] := hne (by rw [hrp1]; simp)
          cases rp2 with
          | nil => exact absurd rfl hrp2ne
          | cons j rest2 =>
            have hrest2 : rest2 = rp := by
              have h2 : rest2 = rp1.tail := htail
              rw [hrp1] at h2
              exact h2
            have hpar : goto_parent (j :: rest2) = some rest2 := rfl
            rw [helper_succ_node t o fuel rp rp1 rest2 (j :: rest2) evs0 outs0 hg hl hpar]
            constructor
            · intro h
              cases h
            · intro evs outs rp' h
              cases h
              exact hrest2
    · intro rp
      cases hh : traverse_helper t o fuel rp with
      | outOfFuel =>
        have heq : helperLoop t o (fuel + 1) rp = .outOfFuel := by
          simp [helperLoop, hh]
        rw [heq]
        constructor
        · intro h
          cases h
        · intro evs outs rp' h
          cases h
      | assertFailed => exact absurd hh (ihH rp).1
      | ok evs0 outs0 rp1 =>
        have hrp1 : rp1 = rp := (ihH rp).2 evs0 outs0 rp1 hh
        subst hrp1
        cases hns : goto_next_sibling t rp1 with
        | none =>
          rw [loop_succ_last t o fuel rp1 rp1 evs0 outs0 hh hns]
          constructor
          · intro h
            cases h
          · intro evs outs rp' h
            cases h
            exact ⟨rfl, fun h2 => h2⟩
        | some rp2 =>
          obtain ⟨i, rest, hrp, hrq⟩ := gns_shape t rp1 rp2 hns
          cases hl2 : helperLoop t o fuel rp2 with
          | outOfFuel =>
            have heq : helperLoop t o (fuel + 1) rp1 = .outOfFuel := by
              simp [helperLoop, hh, hns, hl2]
            rw [heq]
            constructor
            · intro h
              cases h
            · intro evs outs rp' h
              cases h
          | assertFailed => exact absurd hl2 (ihL rp2).1
          | ok evs2 outs2 rp3 =>
            obtain ⟨htail3, hne3⟩ := (ihL rp2).2 evs2 outs2 rp3 hl2
            rw [loop_succ_cons t o fuel rp1 rp1 rp2 rp3 evs0 evs2 outs0 outs2 hh hns hl2]
            constructor
            · intro h
              cases h
            · intro evs outs rp' h
              cases h
              constructor
              · rw [htail3, hrq, hrp]
                rfl
              · intro h2
                exact hne3 (by rw [hrq]; simp)


/-! ### The dispatching Traverse iterator runs like its active variant -/

theorem runTraverse_pre (t : RTree) : ∀ fuel p, runTraverse t fuel ⟨.Pre p⟩ =
    ((runPre t fuel p).1, (runPre t fuel p).2.1, ⟨.Pre (runPre t fuel p).2.2⟩) := by
  intro fuel
  induction fuel with
  | zero => intro p; rfl
  | succ fuel ih =>
    intro p
    cases hnext : PreorderTraverse.next t p with
    | mk evs r =>
      cases r with
      | mk op s' =>
        cases op with
        | none => simp [runTraverse, runPre, Traverse.next, hnext]
        | some n => simp [runTraverse, runPre, Traverse.next, hnext, ih]

theorem runTraverse_post (t : RTree) : ∀ fuel p, runTraverse t fuel ⟨.Post p⟩ =
    ((runPost t fuel p).1, (runPost t fuel p).2.1, ⟨.Post (runPost t fuel p).2.2⟩) := by
  intro fuel
  induction fuel with
  | zero => intro p; rfl
  | succ fuel ih =>
    intro p
    cases hnext : PostorderTraverse.next t p with
    | mk evs r =>
      cases r with
      | mk op s' =>
        cases op with
        | none => simp [runTraverse, runPost, Traverse.next, hnext]
        | some n => simp [runTraverse, runPost, Traverse.next, hnext, ih]

/-! ### Top level: a full run of each implementation on a whole tree -/

theorem iterRun_pre (t : RTree) :
    iterRun t .Pre = (evSub t ++ [.ns false, .par false], preR t [], ⟨.Pre ⟨none⟩⟩) := by
  have hrun := runPre_spec t (tsize t) [] t rfl
    (by simp [pendPre, length_preR])
  unfold iterRun traverse_iter Traverse.new PreorderTraverse.new
  rw [runTraverse_pre, hrun]
  simp [pendPre, pendEv]

theorem iterRun_post (t : RTree) :
    iterRun t .Post = (evSub t ++ [.ns false, .par false], postR t [],
      ⟨.Post ⟨none, true⟩⟩) := by
  have hrun := runPost_spec t (tsize t) [] t false rfl
    (by simp [pendPost])
  unfold iterRun traverse_iter Traverse.new PostorderTraverse.new
  rw [runTraverse_post, hrun]
  simp [pendPost, pendEv]

theorem iterRun_out (t : RTree) (o : Order) : (iterRun t o).2.1 = outR o t [] := by
  cases o
  · rw [iterRun_pre]; rfl
  · rw [iterRun_post]; rfl

theorem iterRun_ev (t : RTree) (o : Order) :
    (iterRun t o).1 = evSub t ++ [.ns false, .par false] := by
  cases o
  · rw [iterRun_pre]
  · rw [iterRun_post]

theorem pendO_nil (o : Order) (t : RTree) : pendO o t [] = [] := by
  cases o <;> rfl

theorem traverse_iterative_spec (t : RTree) (o : Order) :
    traverse_iterative t o (tsize t) =
      some (evSub t ++ [.ns false, .par false], outR o t []) := by
  unfold traverse_iterative
  rw [outerLoop_spec t o (tsize t) [] t rfl (by simp [pendN])]
  rw [pendO_nil]
  simp [pendEv]

theorem traverse_recursive_spec (t : RTree) (o : Order) :
    traverse_recursive t o (2 * tsize t) = .ok (evSub t) (outR o t []) [] := by
  unfold traverse_recursive
  exact (helper_spec t o (2 * tsize t)).1 [] t rfl (Nat.le_refl _)

/-! ### The spec step algorithms agree with the code -/

theorem specPreClimb_none (t : RTree) (rp : List Nat)
    (h : goto_parent rp = none) : specPreClimb t rp = none := by
  rw [specPreClimb]
  split
  case _ => rfl
  case _ rpP hq => rw [h] at hq; cases hq

theorem specPreClimb_some (t : RTree) (rp rpP : List Nat)
    (h : goto_parent rp = some rpP) :
    specPreClimb t rp =
      (match goto_next_sibling t rpP with
       | some rp' => some rp'
       | none => specPreClimb t rpP) := by
  rw [specPreClimb]
  split
  case _ hq => rw [h] at hq; cases hq
  case _ rpQ hq =>
    rw [h] at hq
    cases hq
    rfl

theorem specPreClimb_eq (t : RTree) : ∀ rp, (climbAux t rp).2 = specPreClimb t rp := by
  intro rp
  induction rp with
  | nil => rw [specPreClimb_none t [] rfl]; rfl
  | cons i rest ih =>
    rw [specPreClimb_some t (i :: rest) rest rfl]
    cases hg : goto_next_sibling t rest with
    | some rq => simp [climbAux, hg]
    | none => simp [climbAux, hg, ih]

theorem gfc_measure (t : RTree) (rp rp' : List Nat)
    (h : goto_first_child t rp = some rp') :
    (match subAtR t rp' with | some s => tsize s | none => 0) <
      (match subAtR t rp with | some s => tsize s | none => 0) := by
  simp only [goto_first_child] at h
  split at h
  case _ c cs heq =>
    cases h
    simp only [subAtR, heq, RTree.children, List.getElem?_cons_zero]
    have h2 : tsize (RTree.node (c :: cs)) = 1 + (tsize c + tsizeL cs) := by
      simp [tsize, tsizeL]
    rw [h2]
    omega
  case _ => exact absurd h (by simp)

theorem specDescend_eq_some (t : RTree) (rp rp' : List Nat)
    (h : goto_first_child t rp = some rp') :
    specDescend t rp = specDescend t rp' := by
  conv_lhs => rw [specDescend]
  split
  case _ rq hq => rw [h] at hq; cases hq; rfl
  case _ hq => rw [h] at hq; cases hq

theorem specDescend_eq_none (t : RTree) (rp : List Nat)
    (h : goto_first_child t rp = none) : specDescend t rp = rp := by
  conv_lhs => rw [specDescend]
  split
  case _ rq hq => rw [h] at hq; cases hq
  case _ => rfl

theorem specDescend_eq (t : RTree) : ∀ rp, (descend t rp).2 = specDescend t rp := by
  suffices H : ∀ n rp, (match subAtR t rp with | some s => tsize s | none => 0) ≤ n →
      (descend t rp).2 = specDescend t rp from
    fun rp => H _ rp (Nat.le_refl _)
  intro n
  induction n with
  | zero =>
    intro rp hle
    cases hfc : goto_first_child t rp with
    | none => rw [descend_eq_none t rp hfc, specDescend_eq_none t rp hfc]
    | some rp' =>
      exfalso
      have := gfc_measure t rp rp' hfc
      omega
  | succ n ihn =>
    intro rp hle
    cases hfc : goto_first_child t rp with
    | none => rw [descend_eq_none t rp hfc, specDescend_eq_none t rp hfc]
    | some rp' =>
      rw [descend_eq_some t rp rp' hfc, specDescend_eq_some t rp rp' hfc]
      have := gfc_measure t rp rp' hfc
      exact ihn rp' (by omega)

theorem preNext_eq_spec (t : RTree) (rp : List Nat) :
    (PreorderTraverse.next t ⟨some rp⟩).2.1 = some (specPreStep t rp).1
    ∧ (PreorderTraverse.next t ⟨some rp⟩).2.2 = ⟨(specPreStep t rp).2⟩ := by
  cases hfc : goto_first_child t rp with
  | some c => simp [PreorderTraverse.next, specPreStep, hfc]
  | none =>
    cases hns : goto_next_sibling t rp with
    | some sb => simp [PreorderTraverse.next, specPreStep, hfc, hns]
    | none => simp [PreorderTraverse.next, specPreStep, hfc, hns, specPreClimb_eq]

theorem postNext_eq_spec (t : RTree) (rp : List Nat) (retr : Bool) :
    (PostorderTraverse.next t ⟨some rp, retr⟩).2.1 = some (specPostStep t rp retr).1
    ∧ (PostorderTraverse.next t ⟨some rp, retr⟩).2.2 =
      ⟨(specPostStep t rp retr).2.1, (specPostStep t rp retr).2.2⟩ := by
  cases retr with
  | true =>
    cases hns : goto_next_sibling t rp with
    | some sb =>
      rw [postNext_true_sib t rp sb hns]
      simp [specPostStep, hns]
    | none =>
      cases rp with
      | nil =>
        rw [postNext_true_root t]
        simp [specPostStep, goto_next_sibling, goto_parent]
      | cons i rest =>
        rw [postNext_true_up t i rest hns]
        simp [specPostStep, hns, goto_parent]
  | false =>
    cases hdes : descend t rp with
    | mk devs dp =>
      have hsd : specDescend t rp = dp := by
        rw [← specDescend_eq t rp, hdes]
      cases hns : goto_next_sibling t dp with
      | some sb =>
        rw [postNext_false_sib t rp dp sb devs hdes hns]
        simp [specPostStep, hsd, hns]
      | none =>
        cases dp with
        | nil =>
          rw [postNext_false_root t rp devs hdes]
          simp [specPostStep, hsd, goto_next_sibling, goto_parent]
        | cons i rest =>
          rw [postNext_false_up t rp i rest devs hdes hns]
          simp [specPostStep, hsd, hns, goto_parent]

/-! ### The total number of primitive calls is linear in the tree size -/

theorem evSibs_bound (cs : List RTree)
    (H : ∀ c ∈ cs, (evSub c).length + 1 ≤ 4 * tsize c) :
    (evSibs cs).length ≤ 4 * tsizeL cs + 2 := by
  induction cs with
  | nil => simp [evSibs, tsizeL]
  | cons c cs ih =>
    have hc := H c (by simp)
    have hcs := ih (fun c2 hm => H c2 (by simp [hm]))
    simp only [evSibs, List.length_cons, List.length_append, tsizeL_cons]
    omega

theorem evSub_bound (s : RTree) : (evSub s).length + 1 ≤ 4 * tsize s := by
  induction s using RTree.rec
    (motive_2 := fun cs => ∀ c ∈ cs, (evSub c).length + 1 ≤ 4 * tsize c) with
  | node cs ih =>
    cases cs with
    | nil => simp [evSub, tsize, tsizeL]
    | cons c cs' =>
      have hc := ih c (by simp)
      have hs := evSibs_bound cs' (fun c2 hm => ih c2 (by simp [hm]))
      simp only [evSub, List.length_cons, List.length_append, tsize_node, tsizeL_cons]
      omega
  | nil =>
    rename_i c h
    cases h
  | cons c cs ihc ihcs =>
    rename_i c2 hm
    cases List.mem_cons.mp hm with
    | inl h => rw [h]; exact ihc
    | inr h => exact ihcs c2 h

theorem iterRun_ev_bound (t : RTree) (o : Order) :
    (iterRun t o).1.length ≤ 4 * tsize t + 1 := by
  rw [iterRun_ev]
  have := evSub_bound t
  simp only [List.length_append, List.length_cons, List.length_nil]
  omega

/-! ### Which nodes appear in the produced lists -/

theorem subAtR_append (t : RTree) : ∀ a b, subAtR t (a ++ b) =
    (subAtR t b).bind (fun s => subAtR s a) := by
  intro a
  induction a with
  | nil =>
    intro b
    cases hb : subAtR t b <;> simp [subAtR, hb]
  | cons i a' ih =>
    intro b
    show subAtR t (i :: (a' ++ b)) = _
    simp only [subAtR, ih b]
    cases hb : subAtR t b with
    | none => simp
    | some s =>
      simp only [Option.some_bind]

theorem mem_preL_aux (cs : List RTree)
    (H : ∀ c ∈ cs, ∀ rp q, q ∈ preR c rp → ∃ x, q = x ++ rp ∧ (subAtR c x).isSome) :
    ∀ rp i q, q ∈ preL cs rp i →
      ∃ j x c, cs[j]? = some c ∧ q = x ++ ((i + j) :: rp) ∧ (subAtR c x).isSome := by
  induction cs with
  | nil =>
    intro rp i q hq
    simp [preL] at hq
  | cons c cs ih =>
    intro rp i q hq
    rw [preL, List.mem_append] at hq
    cases hq with
    | inl hq =>
      obtain ⟨x, hx, hsome⟩ := H c (by simp) (i :: rp) q hq
      exact ⟨0, x, c, by simp, by simpa using hx, hsome⟩
    | inr hq =>
      obtain ⟨j, x, c2, hj, hx, hsome⟩ :=
        ih (fun c2 hm => H c2 (by simp [hm])) rp (i + 1) q hq
      refine ⟨j + 1, x, c2, by simpa using hj, ?_, hsome⟩
      rw [hx]
      congr 2
      omega

theorem mem_preR_mem (s : RTree) :
    ∀ rp q, q ∈ preR s rp → ∃ x, q = x ++ rp ∧ (subAtR s x).isSome := by
  induction s using RTree.rec
    (motive_2 := fun cs => ∀ c ∈ cs, ∀ rp q, q ∈ preR c rp →
      ∃ x, q = x ++ rp ∧ (subAtR c x).isSome) with
  | node cs ih =>
    intro rp q hq
    rw [preR, List.mem_cons] at hq
    cases hq with
    | inl hq => exact ⟨[], by simpa using hq, by simp [subAtR]⟩
    | inr hq =>
      obtain ⟨j, x, c, hj, hx, hsome⟩ := mem_preL_aux cs ih rp 0 q hq
      refine ⟨x ++ [j], by simpa using hx, ?_⟩
      rw [subAtR_append]
      have hj2 : subAtR (RTree.node cs) [j] = some c := by
        simp [subAtR, RTree.children, hj]
      rw [hj2, Option.some_bind]
      exact hsome
  | nil =>
    rename_i c hmem rp q hq
    cases hmem
  | cons c cs ihc ihcs =>
    rename_i c2 hm rp q hq
    cases List.mem_cons.mp hm with
    | inl h =>
      subst h
      exact ihc rp q hq
    | inr h => exact ihcs c2 h rp q hq

theorem mem_postL_aux (cs : List RTree)
    (H : ∀ c ∈ cs, ∀ rp q, q ∈ postR c rp → ∃ x, q = x ++ rp ∧ (subAtR c x).isSome) :
    ∀ rp i q, q ∈ postL cs rp i →
      ∃ j x c, cs[j]? = some c ∧ q = x ++ ((i + j) :: rp) ∧ (subAtR c x).isSome := by
  induction cs with
  | nil =>
    intro rp i q hq
    simp [postL] at hq
  | cons c cs ih =>
    intro rp i q hq
    rw [postL, List.mem_append] at hq
    cases hq with
    | inl hq =>
      obtain ⟨x, hx, hsome⟩ := H c (by simp) (i :: rp) q hq
      exact ⟨0, x, c, by simp, by simpa using hx, hsome⟩
    | inr hq =>
      obtain ⟨j, x, c2, hj, hx, hsome⟩ :=
        ih (fun c2 hm => H c2 (by simp [hm])) rp (i + 1) q hq
      refine ⟨j + 1, x, c2, by simpa using hj, ?_, hsome⟩
      rw [hx]
      congr 2
      omega

theorem mem_postR_mem (s : RTree) :
    ∀ rp q, q ∈ postR s rp → ∃ x, q = x ++ rp ∧ (subAtR s x).isSome := by
  induction s using RTree.rec
    (motive_2 := fun cs => ∀ c ∈ cs, ∀ rp q, q ∈ postR c rp →
      ∃ x, q = x ++ rp ∧ (subAtR c x).isSome) with
  | node cs ih =>
    intro rp q hq
    rw [postR, List.mem_append] at hq
    cases hq with
    | inr hq =>
      exact ⟨[], by simpa using hq, by simp [subAtR]⟩
    | inl hq =>
      obtain ⟨j, x, c, hj, hx, hsome⟩ := mem_postL_aux cs ih rp 0 q hq
      refine ⟨x ++ [j], by simpa using hx, ?_⟩
      rw [subAtR_append]
      have hj2 : subAtR (RTree.node cs) [j] = some c := by
        simp [subAtR, RTree.children, hj]
      rw [hj2, Option.some_bind]
      exact hsome
  | nil =>
    rename_i c hmem rp q hq
    cases hmem
  | cons c cs ihc ihcs =>
    rename_i c2 hm rp q hq
    cases List.mem_cons.mp hm with
    | inl h =>
      subst h
      exact ihc rp q hq
    | inr h => exact ihcs c2 h rp q hq

theorem mem_preL_of (rp : List Nat) :
    ∀ cs j c i q, cs[j]? = some c → q ∈ preR c ((i + j) :: rp) → q ∈ preL cs rp i := by
  intro cs
  induction cs with
  | nil =>
    intro j c i q hj
    simp at hj
  | cons c0 cs ih =>
    intro j c i q hj hq
    cases j with
    | zero =>
      simp at hj
      subst hj
      rw [preL, List.mem_append]
      left
      simpa using hq
    | succ j =>
      simp at hj
      rw [preL, List.mem_append]
      right
      refine ih j c (i + 1) q (by simpa using hj) ?_
      have he : i + 1 + j = i + (j + 1) := by omega
      rw [he]
      exact hq

theorem mem_postL_of (rp : List Nat) :
    ∀ cs j c i q, cs[j]? = some c → q ∈ postR c ((i + j) :: rp) → q ∈ postL cs rp i := by
  intro cs
  induction cs with
  | nil =>
    intro j c i q hj
    simp at hj
  | cons c0 cs ih =>
    intro j c i q hj hq
    cases j with
    | zero =>
      simp at hj
      subst hj
      rw [postL, List.mem_append]
      left
      simpa using hq
    | succ j =>
      simp at hj
      rw [postL, List.mem_append]
      right
      refine ih j c (i + 1) q (by simpa using hj) ?_
      have he : i + 1 + j = i + (j + 1) := by omega
      rw [he]
      exact hq

theorem mem_preR_of :
    ∀ x, ∀ (s : RTree) (rp : List Nat), (subAtR s x).isSome → (x ++ rp) ∈ preR s rp := by
  intro x
  induction x using List.reverseRecOn with
  | nil =>
    intro s rp h
    cases s with
    | node cs => simp [preR]
  | append_singleton x' j ih =>
    intro s rp h
    rw [subAtR_append s x' [j]] at h
    cases s with
    | node cs =>
      cases hj : (RTree.node cs).children[j]? with
      | none =>
        rw [show subAtR (RTree.node cs) [j] = (RTree.node cs).children[j]? from rfl, hj] at h
        simp at h
      | some c =>
        rw [show subAtR (RTree.node cs) [j] = (RTree.node cs).children[j]? from rfl, hj,
          Option.some_bind] at h
        have hmem := ih c (j :: rp) h
        have hgoal : (x' ++ [j]) ++ rp = x' ++ (j :: rp) := by simp
        rw [hgoal, preR, List.mem_cons]
        right
        exact mem_preL_of rp (RTree.node cs).children j c 0 (x' ++ (j :: rp)) hj
          (by simpa using hmem)

theorem mem_postR_of :
    ∀ x, ∀ (s : RTree) (rp : List Nat), (subAtR s x).isSome → (x ++ rp) ∈ postR s rp := by
  intro x
  induction x using List.reverseRecOn with
  | nil =>
    intro s rp h
    cases s with
    | node cs => simp [postR]
  | append_singleton x' j ih =>
    intro s rp h
    rw [subAtR_append s x' [j]] at h
    cases s with
    | node cs =>
      cases hj : (RTree.node cs).children[j]? with
      | none =>
        rw [show subAtR (RTree.node cs) [j] = (RTree.node cs).children[j]? from rfl, hj] at h
        simp at h
      | some c =>
        rw [show subAtR (RTree.node cs) [j] = (RTree.node cs).children[j]? from rfl, hj,
          Option.some_bind] at h
        have hmem := ih c (j :: rp) h
        have hgoal : (x' ++ [j]) ++ rp = x' ++ (j :: rp) := by simp
        rw [hgoal, postR, List.mem_append]
        left
        exact mem_postL_of rp (RTree.node cs).children j c 0 (x' ++ (j :: rp)) hj
          (by simpa using hmem)

theorem mem_preR_iff (t : RTree) (q : List Nat) :
    q ∈ preR t [] ↔ (subAtR t q).isSome := by
  constructor
  · intro h
    obtain ⟨x, hx, hsome⟩ := mem_preR_mem t [] q h
    rw [hx]
    simpa using hsome
  · intro h
    have := mem_preR_of q t [] h
    simpa using this

theorem mem_postR_iff (t : RTree) (q : List Nat) :
    q ∈ postR t [] ↔ (subAtR t q).isSome := by
  constructor
  · intro h
    obtain ⟨x, hx, hsome⟩ := mem_postR_mem t [] q h
    rw [hx]
    simpa using hsome
  · intro h
    have := mem_postR_of q t [] h
    simpa using this

/-! ### No node is produced twice -/

theorem append_cons_inj (x y rp : List Nat) (i j : Nat)
    (h : x ++ i :: rp = y ++ j :: rp) : i = j := by
  have h2 := congrArg List.reverse h
  simp only [List.reverse_append, List.reverse_cons, List.append_assoc] at h2
  have h3 := List.append_cancel_left h2
  simp at h3
  exact h3.1

theorem nodup_preL_aux (cs : List RTree)
    (Hn : ∀ c ∈ cs, ∀ rp, (preR c rp).Nodup) :
    ∀ rp i, (preL cs rp i).Nodup := by
  induction cs with
  | nil =>
    intro rp i
    simp [preL]
  | cons c cs ih =>
    intro rp i
    rw [preL]
    refine List.Nodup.append (Hn c (by simp) (i :: rp))
      (ih (fun c2 hm => Hn c2 (by simp [hm])) rp (i + 1)) ?_
    intro q hq1 hq2
    obtain ⟨x, hx, _⟩ := mem_preR_mem c (i :: rp) q hq1
    obtain ⟨k, x2, c2, hk, hx2, _⟩ :=
      mem_preL_aux cs (fun c2 hm rp2 q2 hq => mem_preR_mem c2 rp2 q2 hq) rp (i + 1) q hq2
    rw [hx] at hx2
    have := append_cons_inj x x2 rp i (i + 1 + k) hx2
    omega

theorem nodup_preR (s : RTree) : ∀ rp, (preR s rp).Nodup := by
  induction s using RTree.rec
    (motive_2 := fun cs => ∀ c ∈ cs, ∀ rp, (preR c rp).Nodup) with
  | node cs ih =>
    intro rp
    rw [preR]
    refine List.nodup_cons.mpr ⟨?_, nodup_preL_aux cs ih rp 0⟩
    intro hmem
    obtain ⟨k, x, c, hk, hx, _⟩ :=
      mem_preL_aux cs (fun c hm rp2 q2 hq => mem_preR_mem c rp2 q2 hq) rp 0 rp hmem
    have hlen := congrArg List.length hx
    simp at hlen
    omega
  | nil =>
    rename_i c hmem rp
    cases hmem
  | cons c cs ihc ihcs =>
    rename_i c2 hm rp
    cases List.mem_cons.mp hm with
    | inl h =>
      subst h
      exact ihc rp
    | inr h => exact ihcs c2 h rp

theorem nodup_postL_aux (cs : List RTree)
    (Hn : ∀ c ∈ cs, ∀ rp, (postR c rp).Nodup) :
    ∀ rp i, (postL cs rp i).Nodup := by
  induction cs with
  | nil =>
    intro rp i
    simp [postL]
  | cons c cs ih =>
    intro rp i
    rw [postL]
    refine List.Nodup.append (Hn c (by simp) (i :: rp))
      (ih (fun c2 hm => Hn c2 (by simp [hm])) rp (i + 1)) ?_
    intro q hq1 hq2
    obtain ⟨x, hx, _⟩ := mem_postR_mem c (i :: rp) q hq1
    obtain ⟨k, x2, c2, hk, hx2, _⟩ :=
      mem_postL_aux cs (fun c2 hm rp2 q2 hq => mem_postR_mem c2 rp2 q2 hq) rp (i + 1) q hq2
    rw [hx] at hx2
    have := append_cons_inj x x2 rp i (i + 1 + k) hx2
    omega

theorem nodup_postR (s : RTree) : ∀ rp, (postR s rp).Nodup := by
  induction s using RTree.rec
    (motive_2 := fun cs => ∀ c ∈ cs, ∀ rp, (postR c rp).Nodup) with
  | node cs ih =>
    intro rp
    rw [postR]
    refine List.Nodup.append (nodup_postL_aux cs ih rp 0) (by simp) ?_
    intro q hq1 hq2
    obtain ⟨k, x, c, hk, hx, _⟩ :=
      mem_postL_aux cs (fun c hm rp2 q2 hq => mem_postR_mem c rp2 q2 hq) rp 0 q hq1
    simp at hq2
    rw [hq2] at hx
    have hlen := congrArg List.length hx
    simp at hlen
    omega
  | nil =>
    rename_i c hmem rp
    cases hmem
  | cons c cs ihc ihcs =>
    rename_i c2 hm rp
    cases List.mem_cons.mp hm with
    | inl h =>
      subst h
      exact ihc rp
    | inr h => exact ihcs c2 h rp

theorem mem_outR_iff (t : RTree) (o : Order) (q : List Nat) :
    q ∈ outR o t [] ↔ (subAtR t q).isSome := by
  cases o
  · exact mem_preR_iff t q
  · exact mem_postR_iff t q

theorem nodup_outR (t : RTree) (o : Order) : (outR o t []).Nodup := by
  cases o
  · exact nodup_preR t []
  · exact nodup_postR t []


/-! ### Ancestors appear before descendants in pre-order, after them in post-order -/

theorem preL_split (rp : List Nat) :
    ∀ cs i j c, cs[j]? = some c →
      ∃ A B, preL cs rp i = A ++ (preR c ((i + j) :: rp) ++ B) := by
  intro cs
  induction cs with
  | nil =>
    intro i j c hj
    simp at hj
  | cons c0 cs ih =>
    intro i j c hj
    cases j with
    | zero =>
      simp at hj
      subst hj
      exact ⟨[], preL cs rp (i + 1), by simp [preL]⟩
    | succ j =>
      obtain ⟨A, B, hAB⟩ := ih (i + 1) j c (by simpa using hj)
      refine ⟨preR c0 (i :: rp) ++ A, B, ?_⟩
      rw [show i + 1 + j = i + (j + 1) from by omega] at hAB
      rw [preL, hAB]
      simp [List.append_assoc]

theorem postL_split (rp : List Nat) :
    ∀ cs i j c, cs[j]? = some c →
      ∃ A B, postL cs rp i = A ++ (postR c ((i + j) :: rp) ++ B) := by
  intro cs
  induction cs with
  | nil =>
    intro i j c hj
    simp at hj
  | cons c0 cs ih =>
    intro i j c hj
    cases j with
    | zero =>
      simp at hj
      subst hj
      exact ⟨[], postL cs rp (i + 1), by simp [postL]⟩
    | succ j =>
      obtain ⟨A, B, hAB⟩ := ih (i + 1) j c (by simpa using hj)
      refine ⟨postR c0 (i :: rp) ++ A, B, ?_⟩
      rw [show i + 1 + j = i + (j + 1) from by omega] at hAB
      rw [postL, hAB]
      simp [List.append_assoc]

theorem getElem?_embed (pre seg post : List (List Nat)) (k : Nat) (v : List Nat)
    (h : seg[k]? = some v) : (pre ++ (seg ++ post))[pre.length + k]? = some v := by
  have hk : k < seg.length := (List.getElem?_eq_some.mp h).1
  rw [List.getElem?_append_right (by omega : pre.length ≤ pre.length + k)]
  rw [show pre.length + k - pre.length = k from by omega]
  rw [List.getElem?_append_left hk]
  exact h

theorem pre_ancestor_lt :
    ∀ (x : List Nat), ∀ (s : RTree) (rp y : List Nat), y ≠ [] → (subAtR s (y ++ x)).isSome →
      ∃ (i j : Nat), i < j ∧ (preR s rp)[i]? = some (x ++ rp)
        ∧ (preR s rp)[j]? = some (y ++ (x ++ rp)) := by
  intro x
  induction x using List.reverseRecOn with
  | nil =>
    intro s rp y hy h
    rw [List.append_nil] at h
    have hq : (y ++ rp) ∈ preR s rp := mem_preR_of y s rp h
    obtain ⟨n, hn, hget⟩ := List.getElem_of_mem hq
    have hget2 : (preR s rp)[n]? = some (y ++ rp) := by
      rw [List.getElem?_eq_getElem hn, hget]
    have hn0 : n ≠ 0 := by
      intro h0
      subst h0
      cases s with
      | node cs =>
        simp only [preR, List.getElem_cons_zero] at hget
        have hlen := congrArg List.length hget
        simp at hlen
        exact hy hlen
    refine ⟨0, n, by omega, ?_, hget2⟩
    cases s with
    | node cs =>
      simp [preR]
  | append_singleton x' j0 ihx =>
    intro s rp y hy h
    cases s with
    | node cs =>
      rw [show y ++ (x' ++ [j0]) = (y ++ x') ++ [j0] from (List.append_assoc y x' [j0]).symm,
        subAtR_append (RTree.node cs) (y ++ x') [j0]] at h
      cases hj : (RTree.node cs).children[j0]? with
      | none =>
        rw [show subAtR (RTree.node cs) [j0] = (RTree.node cs).children[j0]? from rfl,
          hj] at h
        simp at h
      | some c =>
        rw [show subAtR (RTree.node cs) [j0] = (RTree.node cs).children[j0]? from rfl,
          hj, Option.some_bind] at h
        obtain ⟨i', j', hlt, h1, h2⟩ := ihx c (j0 :: rp) y hy h
        obtain ⟨A, B, hAB⟩ := preL_split rp (RTree.node cs).children 0 j0 c hj
        rw [Nat.zero_add] at hAB
        simp only [RTree.children] at hAB
        have e1 : (x' ++ [j0]) ++ rp = x' ++ (j0 :: rp) := by simp
        refine ⟨A.length + i' + 1, A.length + j' + 1, by omega, ?_, ?_⟩
        · rw [preR, List.getElem?_cons_succ, hAB, getElem?_embed A _ B i' _ h1, e1]
        · rw [preR, List.getElem?_cons_succ, hAB, getElem?_embed A _ B j' _ h2]
          rw [show y ++ ((x' ++ [j0]) ++ rp) = y ++ (x' ++ (j0 :: rp)) from by rw [e1]]

theorem post_ancestor_gt :
    ∀ (x : List Nat), ∀ (s : RTree) (rp y : List Nat), y ≠ [] → (subAtR s (y ++ x)).isSome →
      ∃ (i j : Nat), j < i ∧ (postR s rp)[i]? = some (x ++ rp)
        ∧ (postR s rp)[j]? = some (y ++ (x ++ rp)) := by
  intro x
  induction x using List.reverseRecOn with
  | nil =>
    intro s rp y hy h
    rw [List.append_nil] at h
    have hq : (y ++ rp) ∈ postR s rp := mem_postR_of y s rp h
    obtain ⟨n, hn, hget⟩ := List.getElem_of_mem hq
    have hget2 : (postR s rp)[n]? = some (y ++ rp) := by
      rw [List.getElem?_eq_getElem hn, hget]
    cases s with
    | node cs =>
      have hlenR : (postR (RTree.node cs) rp).length = (postL cs rp 0).length + 1 := by
        rw [postR]
        simp
      have hlast : (postR (RTree.node cs) rp)[(postL cs rp 0).length]? = some rp := by
        rw [postR, List.getElem?_append_right (Nat.le_refl _)]
        simp
      have hne : n ≠ (postL cs rp 0).length := by
        intro h0
        rw [h0, hlast] at hget2
        have heq : rp = y ++ rp := Option.some_injective _ hget2
        have hlen := congrArg List.length heq
        simp at hlen
        exact hy hlen
      have hnlt : n < (postL cs rp 0).length + 1 := by
        rw [← hlenR]
        exact hn
      refine ⟨(postL cs rp 0).length, n, by omega, ?_, hget2⟩
      simpa using hlast
  | append_singleton x' j0 ihx =>
    intro s rp y hy h
    cases s with
    | node cs =>
      rw [show y ++ (x' ++ [j0]) = (y ++ x') ++ [j0] from (List.append_assoc y x' [j0]).symm,
        subAtR_append (RTree.node cs) (y ++ x') [j0]] at h
      cases hj : (RTree.node cs).children[j0]? with
      | none =>
        rw [show subAtR (RTree.node cs) [j0] = (RTree.node cs).children[j0]? from rfl,
          hj] at h
        simp at h
      | some c =>
        rw [show subAtR (RTree.node cs) [j0] = (RTree.node cs).children[j0]? from rfl,
          hj, Option.some_bind] at h
        obtain ⟨i', j', hlt, h1, h2⟩ := ihx c (j0 :: rp) y hy h
        obtain ⟨A, B, hAB⟩ := postL_split rp (RTree.node cs).children 0 j0 c hj
        rw [Nat.zero_add] at hAB
        simp only [RTree.children] at hAB
        have e1 : (x' ++ [j0]) ++ rp = x' ++ (j0 :: rp) := by simp
        have hemb : ∀ k v, (postR c (j0 :: rp))[k]? = some v →
            (postR (RTree.node cs) rp)[A.length + k]? = some v := by
          intro k v hk
          have hklt : k < (postR c (j0 :: rp)).length := (List.getElem?_eq_some.mp hk).1
          have hin : A.length + k < (postL cs rp 0).length := by
            have := congrArg List.length hAB
            simp only [List.length_append] at this
            omega
          rw [postR, List.getElem?_append_left hin, hAB,
            getElem?_embed A _ B k _ hk]
        refine ⟨A.length + i', A.length + j', by omega, ?_, ?_⟩
        · rw [hemb i' _ h1, e1]
        · rw [hemb j' _ h2]
          rw [show y ++ ((x' ++ [j0]) ++ rp) = y ++ (x' ++ (j0 :: rp)) from by rw [e1]]

/-! ### Small facts about single next calls and exhausted states -/

theorem preNext_some_out (t : RTree) (rp : List Nat) :
    (PreorderTraverse.next t ⟨some rp⟩).2.1 = some rp := by
  cases hfc : goto_first_child t rp with
  | some c => simp [PreorderTraverse.next, hfc]
  | none =>
    cases hns : goto_next_sibling t rp with
    | some sb => simp [PreorderTraverse.next, hfc, hns]
    | none => simp [PreorderTraverse.next, hfc, hns]

theorem postNext_some_out (t : RTree) (rp : List Nat) (retr : Bool) :
    ∃ n, (PostorderTraverse.next t ⟨some rp, retr⟩).2.1 = some n := by
  cases retr with
  | true =>
    cases hns : goto_next_sibling t rp with
    | some sb => exact ⟨rp, by rw [postNext_true_sib t rp sb hns]⟩
    | none =>
      cases rp with
      | nil => exact ⟨[], by rw [postNext_true_root t]⟩
      | cons i rest => exact ⟨i :: rest, by rw [postNext_true_up t i rest hns]⟩
  | false =>
    cases hdes : descend t rp with
    | mk devs dp =>
      cases hns : goto_next_sibling t dp with
      | some sb => exact ⟨dp, by rw [postNext_false_sib t rp dp sb devs hdes hns]⟩
      | none =>
        cases dp with
        | nil => exact ⟨[], by rw [postNext_false_root t rp devs hdes]⟩
        | cons i rest =>
          exact ⟨i :: rest, by rw [postNext_false_up t rp i rest devs hdes hns]⟩

theorem traverse_iter_first_some (t : RTree) (o : Order) :
    (Traverse.next t (traverse_iter t o)).2.1 ≠ none := by
  cases o with
  | Pre =>
    unfold traverse_iter Traverse.new
    show (Traverse.next t ⟨.Pre PreorderTraverse.new⟩).2.1 ≠ none
    have h := preNext_some_out t []
    simp [Traverse.next, PreorderTraverse.new] at h ⊢
    simp [h]
  | Post =>
    unfold traverse_iter Traverse.new
    show (Traverse.next t ⟨.Post PostorderTraverse.new⟩).2.1 ≠ none
    obtain ⟨n, hn⟩ := postNext_some_out t [] false
    simp [Traverse.next, PostorderTraverse.new] at hn ⊢
    simp [hn]

/-! ### The claims -/

/-- Claim C1: for every tree and order, fully consuming the lazy iterator
traverse_iter, the recursive reference walker traverse_recursive and the
iterative callback walker traverse_iterative produce identical node lists,
of length equal to the number of nodes of the tree. -/
theorem claim_C1_equivalence (t : RTree) (o : Order) :
    (iterRun t o).2.1 = outR o t []
    ∧ traverse_iterative t o (tsize t) =
        some (evSub t ++ [.ns false, .par false], outR o t [])
    ∧ traverse_recursive t o (2 * tsize t) = .ok (evSub t) (outR o t []) []
    ∧ (outR o t []).length = tsize t :=
  ⟨iterRun_out t o, traverse_iterative_spec t o, traverse_recursive_spec t o,
   length_outR o t []⟩

/-- Claim C2: on a non exhausted state, PreorderTraverse::next produces the
current node and moves exactly as the spec step algorithm of section 4.2
prescribes: first child, else next sibling, else the toParent climb that
either finds a sibling or clears the cursor. -/
theorem claim_C2_preorder_step (t : RTree) (rp : List Nat) :
    (PreorderTraverse.next t ⟨some rp⟩).2.1 = some (specPreStep t rp).1
    ∧ (PreorderTraverse.next t ⟨some rp⟩).2.2 = ⟨(specPreStep t rp).2⟩ :=
  preNext_eq_spec t rp

/-- Claim C3: on a non exhausted state, PostorderTraverse::next descends to
the leftmost leaf unless retracing, produces the reached node, and updates
cursor and retracing flag exactly as the spec step algorithm of section 4.3
prescribes. -/
theorem claim_C3_postorder_step (t : RTree) (rp : List Nat) (retr : Bool) :
    (PostorderTraverse.next t ⟨some rp, retr⟩).2.1 = some (specPostStep t rp retr).1
    ∧ (PostorderTraverse.next t ⟨some rp, retr⟩).2.2 =
      ⟨(specPostStep t rp retr).2.1, (specPostStep t rp retr).2.2⟩ :=
  postNext_eq_spec t rp retr

/-- Claim C4: in the sequence produced by traverse_iter with order Pre every
node appears strictly before each of its descendants, and with order Post
strictly after each of its descendants.  A node is the reversed root path
p, a strict descendant is q = y ++ p with y nonempty. -/
theorem claim_C4_order (t : RTree) (p q y : List Nat) (hy : y ≠ [])
    (hpq : q = y ++ p) (hq : (subAtR t q).isSome) :
    (∃ (i j : Nat), i < j ∧ (iterRun t .Pre).2.1[i]? = some p
      ∧ (iterRun t .Pre).2.1[j]? = some q)
    ∧ (∃ (i j : Nat), j < i ∧ (iterRun t .Post).2.1[i]? = some p
      ∧ (iterRun t .Post).2.1[j]? = some q) := by
  subst hpq
  constructor
  · obtain ⟨i, j, hij, h1, h2⟩ := pre_ancestor_lt p t [] y hy hq
    rw [List.append_nil] at h1 h2
    refine ⟨i, j, hij, ?_, ?_⟩
    · rw [iterRun_pre]
      exact h1
    · rw [iterRun_pre]
      exact h2
  · obtain ⟨i, j, hij, h1, h2⟩ := post_ancestor_gt p t [] y hy hq
    rw [List.append_nil] at h1 h2
    refine ⟨i, j, hij, ?_, ?_⟩
    · rw [iterRun_post]
      exact h1
    · rw [iterRun_post]
      exact h2

/-- Witness for claim C4 on the three node chain, parent [0] and child [0, 0]. -/
theorem claim_C4_order_witness :
    (∃ (i j : Nat), i < j
      ∧ (iterRun (RTree.node [RTree.node [RTree.node []]]) .Pre).2.1[i]? = some [0]
      ∧ (iterRun (RTree.node [RTree.node [RTree.node []]]) .Pre).2.1[j]? = some [0, 0])
    ∧ (∃ (i j : Nat), j < i
      ∧ (iterRun (RTree.node [RTree.node [RTree.node []]]) .Post).2.1[i]? = some [0]
      ∧ (iterRun (RTree.node [RTree.node [RTree.node []]]) .Post).2.1[j]? = some [0, 0]) :=
  claim_C4_order (RTree.node [RTree.node [RTree.node []]]) [0] [0, 0] [0]
    (by decide) (by decide) (by rfl)

/-- Claim C5: for both orders the sequence produced by traverse_iter contains
every node of the tree exactly once (membership is exactly validity of the
path, with no duplicates) and its length is the node count. -/
theorem claim_C5_completeness (t : RTree) (o : Order) :
    (∀ q, q ∈ (iterRun t o).2.1 ↔ (subAtR t q).isSome)
    ∧ (iterRun t o).2.1.Nodup
    ∧ (iterRun t o).2.1.length = tsize t := by
  rw [iterRun_out]
  exact ⟨mem_outR_iff t o, nodup_outR t o, length_outR o t []⟩

/-- Claim C6, counterexample: on the single node tree the recursive walker
calls one cursor primitive while the iterative walker calls three, so the two
reference walkers do not invoke the primitives in the same sequence. -/
theorem claim_C6_counterexample :
    traverse_recursive (RTree.node []) Order.Pre (2 * tsize (RTree.node [])) =
      HelperResult.ok [Ev.fc false] [[]] []
    ∧ traverse_iterative (RTree.node []) Order.Pre (tsize (RTree.node [])) =
      some ([Ev.fc false, Ev.ns false, Ev.par false], [[]])
    ∧ ([Ev.fc false] : List Ev) ≠ [Ev.fc false, Ev.ns false, Ev.par false] :=
  ⟨rfl, rfl, by decide⟩

/-- Claim C6, amended: both lazy sequences call the cursor primitives in
exactly the same order as the iterative walker; the recursive walker issues
the same sequence minus the two final failing calls (one toNextSibling and
one toParent at the root), hence a proper prefix of it. -/
theorem claim_C6_trace (t : RTree) (o : Order) :
    (iterRun t o).1 = evSub t ++ [.ns false, .par false]
    ∧ traverse_iterative t o (tsize t) = some ((iterRun t o).1, outR o t [])
    ∧ traverse_recursive t o (2 * tsize t) = .ok (evSub t) (outR o t []) [] := by
  refine ⟨iterRun_ev t o, ?_, traverse_recursive_spec t o⟩
  rw [iterRun_ev]
  exact traverse_iterative_spec t o

/-- Claim C7: after full consumption the lazy sequence holds no cursor, and
every further next call idempotently yields nothing. -/
theorem claim_C7_exhaustion (t : RTree) (o : Order) :
    Traverse.cursor (iterRun t o).2.2 = none
    ∧ Traverse.next t (iterRun t o).2.2 = ([], none, (iterRun t o).2.2)
    ∧ ∀ k, runTraverse t k (iterRun t o).2.2 = ([], [], (iterRun t o).2.2) := by
  cases o with
  | Pre =>
    rw [iterRun_pre]
    refine ⟨rfl, by simp [Traverse.next, PreorderTraverse.next], fun k => ?_⟩
    show runTraverse t k ⟨.Pre ⟨none⟩⟩ = ([], [], ⟨.Pre ⟨none⟩⟩)
    rw [runTraverse_pre, runPre_none]
  | Post =>
    rw [iterRun_post]
    refine ⟨rfl, by simp [Traverse.next, PostorderTraverse.next], fun k => ?_⟩
    show runTraverse t k ⟨.Post ⟨none, true⟩⟩ = ([], [], ⟨.Post ⟨none, true⟩⟩)
    rw [runTraverse_post, runPost_none]

/-- Claim C8: every next call is a total function by construction (the climb
and descent loops are well founded); a full traversal reaches the exhausted
state within tsize t produced items and performs a number of cursor
primitive moves linear in the node count. -/
theorem claim_C8_termination (t : RTree) (o : Order) :
    (iterRun t o).1.length ≤ 4 * tsize t + 1
    ∧ Traverse.cursor (iterRun t o).2.2 = none
    ∧ (Traverse.next t (iterRun t o).2.2).2.1 = none := by
  refine ⟨iterRun_ev_bound t o, ?_, ?_⟩
  · cases o with
    | Pre => rw [iterRun_pre]; rfl
    | Post => rw [iterRun_post]; rfl
  · cases o with
    | Pre => rw [iterRun_pre]; simp [Traverse.next, PreorderTraverse.next]
    | Post => rw [iterRun_post]; simp [Traverse.next, PostorderTraverse.next]

/-- Claim C9: the assertion that goto_parent succeeds in traverse_helper
never fails, for any fuel and start position; moreover a completed call
returns the cursor to its starting node. -/
theorem claim_C9_assert (t : RTree) (o : Order) (fuel : Nat) (rp : List Nat) :
    traverse_helper t o fuel rp ≠ HelperResult.assertFailed
    ∧ (∀ evs outs rp', traverse_helper t o fuel rp = .ok evs outs rp' → rp' = rp) :=
  (helper_no_assert t o fuel).1 rp

/-- Witness for claim C9 on the two node tree. -/
theorem claim_C9_assert_witness :
    traverse_helper (RTree.node [RTree.node []]) Order.Pre 4 [] ≠
      HelperResult.assertFailed
    ∧ ([] : List Nat) = [] :=
  ⟨(claim_C9_assert (RTree.node [RTree.node []]) Order.Pre 4 []).1,
   (claim_C9_assert (RTree.node [RTree.node []]) Order.Pre 4 []).2
     [Ev.fc true, Ev.fc false, Ev.ns false, Ev.par true] [[], [0]] [] rfl⟩

/-- Claim C10: next returns nothing exactly when the stored cursor is None;
a freshly constructed sequence always yields a first node. -/
theorem claim_C10_live (t : RTree) :
    (∀ p : PreorderTraverse, (PreorderTraverse.next t p).2.1 = none ↔ p.cursor = none)
    ∧ (∀ p : PostorderTraverse, (PostorderTraverse.next t p).2.1 = none ↔ p.cursor = none)
    ∧ (∀ o : Order, (Traverse.next t (traverse_iter t o)).2.1 ≠ none) := by
  refine ⟨?_, ?_, traverse_iter_first_some t⟩
  · intro p
    cases p with
    | mk cur =>
      cases cur with
      | none => simp [PreorderTraverse.next]
      | some rp =>
        rw [preNext_some_out t rp]
  · intro p
    cases p with
    | mk cur retr =>
      cases cur with
      | none => simp [PostorderTraverse.next]
      | some rp =>
        obtain ⟨n, hn⟩ := postNext_some_out t rp retr
        rw [hn]
        simp

/-- Witness for claim C10 on the single node tree. -/
theorem claim_C10_live_witness :
    ((PreorderTraverse.next (RTree.node []) ⟨some []⟩).2.1 = none ↔
      (⟨some []⟩ : PreorderTraverse).cursor = none)
    ∧ (Traverse.next (RTree.node [])
        (traverse_iter (RTree.node []) Order.Pre)).2.1 ≠ none :=
  ⟨(claim_C10_live (RTree.node [])).1 ⟨some []⟩,
   (claim_C10_live (RTree.node [])).2.2 Order.Pre⟩

end TS
